import Mathlib

/-!
Merkle proof operators (`crypto/merkle/operators.go`)

A shallow embedding of the proof-operator stack machine: the operators, their
`Run` / `Encode` / decoder functions, `RunOps`, and the grammar validators of
`proof_simple_value.go`.

Conventions of the embedding.

* A Go `[]byte` is a `List UInt8`; a value stack `[][]byte` is a list of those,
  index 0 first.  A nil slice and an empty slice are the same list; the one
  place where the source tests for nil (`input != nil` in `RunOps`) takes an
  `Option`.
* A Go `int` (`Begin`, `End`, `Argn()`) is an `Int`.
* A Go call has three outcomes, kept apart by `Result`: a normal return
  carrying a value, a normal return carrying a non-nil `error`, and a run-time
  panic (index or slice bounds out of range, or an explicit `panic(err)`).
-/

namespace Merkle

abbrev Bytes := List UInt8

abbrev Stack := List Bytes

/-- Outcome of a Go call: a value, a returned `error`, or a panic. -/
inductive Result (α : Type) where
  | ok (a : α)
  | err (msg : String)
  | panicked
  deriving DecidableEq, Repr

namespace Result

/-- The call returned normally with a value (no error, no panic). -/
def isOk {α : Type} : Result α → Bool
  | ok _ => true
  | _ => false

/-- The call returned normally, with a value or with an `error`. -/
def returns {α : Type} : Result α → Bool
  | panicked => false
  | _ => true

end Result

/-- The seven operator types of `operators.go`. -/
inductive ProofOperator where
  | AppendOp (Prefix Suffix : Bytes)
  | SHA256Op
  | PrependLengthOp
  | ConcatOp (Begin End : Int)
  | LiftKeyOp (Key : Bytes)
  | AssertValuesOp (Values : List Bytes)
  | ApplyOp (Ops : List ProofOperator)

/-- Wire form of an operator; the Go field `Type` is spelt `Type_`, `Type` being
reserved in Lean. -/
structure ProofOp where
  Type_ : String
  Key : Bytes
  Data : Bytes
  deriving DecidableEq, Repr

def OpTypeAppend : String := "append"
def OpTypeSHA256 : String := "sha256"
def OpTypePrependLength : String := "prepend_length"
def OpTypeConcat : String := "concat"
def OpTypeLiftKey : String := "lift_key"
def OpTypeAssertValues : String := "assert_values"
def OpTypeApply : String := "apply"

/-- Go slice expression `s[lo:hi]`: panics (`none`) unless `0 ≤ lo ≤ hi ≤ len`.
Go checks `hi` against the capacity rather than the length; at every use
below a guard has already established `hi ≤ len`, or a later slice of the same
call panics on the same indices, so the outcome of the caller is the same. -/
def slice {α : Type} (s : List α) (lo hi : Int) : Option (List α) :=
  if 0 ≤ lo ∧ lo ≤ hi ∧ hi ≤ (s.length : Int) then
    some ((s.drop lo.toNat).take (hi.toNat - lo.toNat))
  else none

/-- Go index expression `s[0]`: panics (`none`) on an empty slice. -/
def index0 {α : Type} (s : List α) : Option α := s.head?

/-! ## SHA-256

`tmhash.New()` is the standard library's SHA-256.  Words are naturals kept
below `2^32`. -/

namespace SHA256

/-- Modelled from the spec: the round constants of SHA-256 (FIPS 180-4 §4.2.2);
`tmhash` and the hash behind it are not among the source files, the spec names
the primitive ("SHA-256 ... 32-byte digest"). -/
def K : List Nat :=
  [0x428a2f98, 0x71374491, 0xb5c0fbcf, 0xe9b5dba5, 0x3956c25b, 0x59f111f1, 0x923f82a4, 0xab1c5ed5,
   0xd807aa98, 0x12835b01, 0x243185be, 0x550c7dc3, 0x72be5d74, 0x80deb1fe, 0x9bdc06a7, 0xc19bf174,
   0xe49b69c1, 0xefbe4786, 0x0fc19dc6, 0x240ca1cc, 0x2de92c6f, 0x4a7484aa, 0x5cb0a9dc, 0x76f988da,
   0x983e5152, 0xa831c66d, 0xb00327c8, 0xbf597fc7, 0xc6e00bf3, 0xd5a79147, 0x06ca6351, 0x14292967,
   0x27b70a85, 0x2e1b2138, 0x4d2c6dfc, 0x53380d13, 0x650a7354, 0x766a0abb, 0x81c2c92e, 0x92722c85,
   0xa2bfe8a1, 0xa81a664b, 0xc24b8b70, 0xc76c51a3, 0xd192e819, 0xd6990624, 0xf40e3585, 0x106aa070,
   0x19a4c116, 0x1e376c08, 0x2748774c, 0x34b0bcb5, 0x391c0cb3, 0x4ed8aa4a, 0x5b9cca4f, 0x682e6ff3,
   0x748f82ee, 0x78a5636f, 0x84c87814, 0x8cc70208, 0x90befffa, 0xa4506ceb, 0xbef9a3f7, 0xc67178f2]

/-- Modelled from the spec: the eight working words of the SHA-256 compression
function. -/
structure State where
  a : Nat
  b : Nat
  c : Nat
  d : Nat
  e : Nat
  f : Nat
  g : Nat
  h : Nat

/-- Modelled from the spec: the initial hash value of SHA-256 (FIPS 180-4 §5.3.3). -/
def init : State :=
  ⟨0x6a09e667, 0xbb67ae85, 0x3c6ef372, 0xa54ff53a, 0x510e527f, 0x9b05688c, 0x1f83d9ab, 0x5be0cd19⟩

/-- Modelled from the spec: reduction to a 32-bit word. -/
def w32 (x : Nat) : Nat := x % 2 ^ 32

/-- Modelled from the spec: rotation to the right of a 32-bit word. -/
def rotr (x n : Nat) : Nat := w32 ((x >>> n) ||| (x <<< (32 - n)))

/-- Modelled from the spec: the function Σ₀ of SHA-256. -/
def bsig0 (x : Nat) : Nat := rotr x 2 ^^^ rotr x 13 ^^^ rotr x 22

/-- Modelled from the spec: the function Σ₁ of SHA-256. -/
def bsig1 (x : Nat) : Nat := rotr x 6 ^^^ rotr x 11 ^^^ rotr x 25

/-- Modelled from the spec: the function σ₀ of SHA-256. -/
def ssig0 (x : Nat) : Nat := rotr x 7 ^^^ rotr x 18 ^^^ (x >>> 3)

/-- Modelled from the spec: the function σ₁ of SHA-256. -/
def ssig1 (x : Nat) : Nat := rotr x 17 ^^^ rotr x 19 ^^^ (x >>> 10)

/-- Modelled from the spec: the function Ch of SHA-256. -/
def ch (x y z : Nat) : Nat := (x &&& y) ^^^ ((x ^^^ 0xffffffff) &&& z)

/-- Modelled from the spec: the function Maj of SHA-256. -/
def maj (x y z : Nat) : Nat := (x &&& y) ^^^ (x &&& z) ^^^ (y &&& z)

/-- Modelled from the spec: the message padding of SHA-256, a `0x80` byte, zeros up to 56 mod 64, the bit length as a
big-endian 64-bit integer. -/
def pad (msg : Bytes) : Bytes :=
  let bits := msg.length * 8
  let zeros : Bytes := List.replicate ((119 - msg.length % 64) % 64) 0
  let len : Bytes := (List.range 8).map (fun i => UInt8.ofNat (bits >>> (8 * (7 - i))))
  msg ++ [0x80] ++ zeros ++ len

/-- Modelled from the spec: the big-endian 32-bit words of a block. -/
def toWords : Bytes → List Nat
  | b0 :: b1 :: b2 :: b3 :: rest =>
    (b0.toNat * 2 ^ 24 + b1.toNat * 2 ^ 16 + b2.toNat * 2 ^ 8 + b3.toNat) :: toWords rest
  | _ => []

/-- Modelled from the spec: one more word of the message schedule. -/
def extend (w : List Nat) : List Nat :=
  let n := w.length
  w ++ [w32 (ssig1 (w.getD (n - 2) 0) + w.getD (n - 7) 0 + ssig0 (w.getD (n - 15) 0)
    + w.getD (n - 16) 0)]

/-- Modelled from the spec: the 64 words of the message schedule of a block. -/
def schedule (block : Bytes) : List Nat := extend^[48] (toWords block)

/-- Modelled from the spec: one round of the compression function, with the
round constant and the schedule word. -/
def round (s : State) (kw : Nat × Nat) : State :=
  let t1 := s.h + bsig1 s.e + ch s.e s.f s.g + kw.1 + kw.2
  let t2 := bsig0 s.a + maj s.a s.b s.c
  ⟨w32 (t1 + t2), s.a, s.b, s.c, w32 (s.d + t1), s.e, s.f, s.g⟩

/-- Modelled from the spec: the compression of one 64-byte block into the
hash state. -/
def compress (s : State) (block : Bytes) : State :=
  let t := (K.zip (schedule block)).foldl round s
  ⟨w32 (s.a + t.a), w32 (s.b + t.b), w32 (s.c + t.c), w32 (s.d + t.d),
   w32 (s.e + t.e), w32 (s.f + t.f), w32 (s.g + t.g), w32 (s.h + t.h)⟩

/-- Modelled from the spec: the compression of `n` consecutive 64-byte blocks. -/
def absorb : Nat → State → Bytes → State
  | 0, s, _ => s
  | n + 1, s, bz => absorb n (compress s (bz.take 64)) (bz.drop 64)

/-- Modelled from the spec: the four bytes of a word, most significant first. -/
def wordBytes (x : Nat) : Bytes :=
  [UInt8.ofNat (x >>> 24), UInt8.ofNat (x >>> 16), UInt8.ofNat (x >>> 8), UInt8.ofNat x]

/-- Modelled from the spec: the 32 bytes of the final hash state. -/
def digest (s : State) : Bytes :=
  wordBytes s.a ++ wordBytes s.b ++ wordBytes s.c ++ wordBytes s.d
    ++ wordBytes s.e ++ wordBytes s.f ++ wordBytes s.g ++ wordBytes s.h

/-- Modelled from the spec: `hasher := tmhash.New(); hasher.Write(v); hasher.Sum(nil)`,
the SHA-256 digest of `v`; package `tmhash` is not among the source files. -/
def sum (msg : Bytes) : Bytes :=
  let p := pad msg
  digest (absorb (p.length / 64) init p)

end SHA256

/-! ## Length-delimited byte encoding (`go-amino`) -/

namespace amino

/-- Modelled from the spec: the loop of `binary.PutUvarint`, "the unsigned
little-endian base-128 varint (each byte carries 7 payload bits; MSB set on all
but the last)"; `go-amino` is not among the source files.  The buffer of
`EncodeUvarint` has ten bytes, which is what a `uint64` needs at most, hence
the fuel. -/
def putUvarint : Nat → Nat → Bytes
  | 0, _ => []
  | fuel + 1, x =>
    if x < 0x80 then [UInt8.ofNat x]
    else UInt8.ofNat (x % 256 ||| 0x80) :: putUvarint fuel (x >>> 7)

/-- Modelled from the spec: `amino.EncodeUvarint` of a `uint64`. -/
def EncodeUvarint (u : Nat) : Bytes := putUvarint 10 (u % 2 ^ 64)

/-- Modelled from the spec: `amino.EncodeByteSlice(buf, bz)`, "a byte string `b` is
encoded as `uvarint(len(b)) || b`"; the value is what is written to the buffer
(writing to a `bytes.Buffer` does not fail). -/
def EncodeByteSlice (bz : Bytes) : Bytes := EncodeUvarint bz.length ++ bz

/-- Modelled from the spec: the loop of `binary.Uvarint` at byte index `i`, shift `s`
and accumulator `x`, returning the value and the number of bytes read; the
count is `0` when the buffer ends inside the varint and negative when the
varint needs more than 64 bits ("non-canonical varints exceeding 10 bytes,
lengths overflowing a 64-bit unsigned"). -/
def uvarintLoop : Bytes → Nat → Nat → Nat → Nat × Int
  | [], _, _, _ => (0, 0)
  | b :: rest, i, s, x =>
    if b.toNat < 0x80 then
      if i > 9 ∨ (i = 9 ∧ b.toNat > 1) then (0, -((i : Int) + 1))
      else ((x ||| (b.toNat <<< s)) % 2 ^ 64, (i : Int) + 1)
    else uvarintLoop rest (i + 1) (s + 7) ((x ||| ((b.toNat &&& 0x7f) <<< s)) % 2 ^ 64)

/-- Modelled from the spec: `amino.DecodeUvarint`, the value and the bytes read, or an
error on a truncated or overflowing varint. -/
def DecodeUvarint (bz : Bytes) : Result (Nat × Nat) :=
  match uvarintLoop bz 0 0 0 with
  | (u, n) =>
    if n = 0 then .err "buffer too small"
    else if n < 0 then .err "EOF decoding uvarint"
    else .ok (u, n.toNat)

/-- Modelled from the spec: `amino.DecodeByteSlice`, the decoded byte string and the
number of bytes consumed; it rejects a length that is negative as an `int` and
a payload shorter than the length ("truncated payloads"). -/
def DecodeByteSlice (bz : Bytes) : Result (Bytes × Nat) :=
  match DecodeUvarint bz with
  | .ok (count, n) =>
    if 2 ^ 63 ≤ count then .err "invalid negative length"
    else if (bz.drop n).length < count then .err "insufficient bytes"
    else .ok ((bz.drop n).take count, n + count)
  | .err msg => .err msg
  | .panicked => .panicked

end amino

/-! ## The operators -/

namespace ProofOperator

def Argn : ProofOperator → Int
  | AppendOp _ _ => 1
  | SHA256Op => 1
  | PrependLengthOp => 1
  | ConcatOp _ _ => -1
  | LiftKeyOp _ => -1
  | AssertValuesOp _ => -1
  | ApplyOp _ => -1

def Type_ : ProofOperator → String
  | AppendOp _ _ => OpTypeAppend
  | SHA256Op => OpTypeSHA256
  | PrependLengthOp => OpTypePrependLength
  | ConcatOp _ _ => OpTypeConcat
  | LiftKeyOp _ => OpTypeLiftKey
  | AssertValuesOp _ => OpTypeAssertValues
  | ApplyOp _ => OpTypeApply

/-- `GetKey`; a nil result is the empty byte string. -/
def GetKey : ProofOperator → Bytes
  | LiftKeyOp Key => Key
  | _ => []

/-- `Encode`; a nil result is the empty byte string. -/
def Encode : ProofOperator → Bytes
  | AppendOp Prefix Suffix => amino.EncodeByteSlice Prefix ++ amino.EncodeByteSlice Suffix
  | _ => []

end ProofOperator

/-- `AppendOp.concat`. -/
def AppendOp.concat (Prefix Suffix leaf : Bytes) : Bytes := Prefix ++ leaf ++ Suffix

/-- `AppendOp.Run`. -/
def AppendOp.Run (Prefix Suffix : Bytes) (values : Stack) : Result Stack :=
  match index0 values with
  | none => .panicked
  | some v => .ok [AppendOp.concat Prefix Suffix v]

/-- `SHA256Op.Run`. -/
def SHA256Op.Run (values : Stack) : Result Stack :=
  match index0 values with
  | none => .panicked
  | some v => .ok [SHA256.sum v]

/-- `PrependLengthOp.Run`: `values[0]` is overwritten and the whole slice returned. -/
def PrependLengthOp.Run (values : Stack) : Result Stack :=
  match index0 values with
  | none => .panicked
  | some v => .ok (amino.EncodeByteSlice v :: values.tail)

/-- The loop of `ConcatOp.Run` that builds `joined`. -/
def ConcatOp.join (vs : Stack) : Bytes := vs.foldl (fun joined v => joined ++ v) []

/-- `ConcatOp.Run`. -/
def ConcatOp.Run (Begin End : Int) (values : Stack) : Result Stack :=
  if (values.length : Int) < End then .err "hhh"
  else
    match slice values 0 Begin with
    | none => .panicked
    | some front =>
      match slice values Begin End with
      | none => .panicked
      | some mid =>
        match slice values End values.length with
        | none => .panicked
        | some back => .ok (front ++ [ConcatOp.join mid] ++ back)

/-- `LiftKeyOp.Run`. -/
def LiftKeyOp.Run (Key : Bytes) (values : Stack) : Result Stack := .ok (Key :: values)

/-- The set `accepted` of `AssertValuesOp.Run`, as the list of its keys. -/
def AssertValuesOp.accepted (Values : List Bytes) : List Bytes :=
  Values.foldl (fun acc v => acc.insert v) []

/-- The checking loop of `AssertValuesOp.Run`: `false` at the first value that
is not a key of `accepted`. -/
def AssertValuesOp.check (accepted : List Bytes) : Stack → Bool
  | [] => true
  | v :: rest => if accepted.contains v then AssertValuesOp.check accepted rest else false

/-- `AssertValuesOp.Run`. -/
def AssertValuesOp.Run (Values : List Bytes) (values : Stack) : Result Stack :=
  if AssertValuesOp.check (AssertValuesOp.accepted Values) values then .ok values
  else .err "ttt"

mutual
/-- `op.Run(values)`, by the dynamic type of `op`. -/
def ProofOperator.Run : ProofOperator → Stack → Result Stack
  | .AppendOp Prefix Suffix, values => AppendOp.Run Prefix Suffix values
  | .SHA256Op, values => SHA256Op.Run values
  | .PrependLengthOp, values => PrependLengthOp.Run values
  | .ConcatOp Begin End, values => ConcatOp.Run Begin End values
  | .LiftKeyOp Key, values => LiftKeyOp.Run Key values
  | .AssertValuesOp Values, values => AssertValuesOp.Run Values values
  | .ApplyOp Ops, values => ApplyOp.loop Ops values []
/-- The loop of `ApplyOp.Run` over the remaining inner operators, with the
working stack `values` and the accumulated `res`. -/
def ApplyOp.loop : List ProofOperator → Stack → Stack → Result Stack
  | [], _, res => .ok res
  | iop :: rest, values, res =>
    if (values.length : Int) < iop.Argn then .err "ddd"
    else
      match slice values 0 iop.Argn with
      | none => .panicked
      | some args =>
        match ProofOperator.Run iop args with
        | .ok ires =>
          match slice values iop.Argn values.length with
          | none => .panicked
          | some values1 => ApplyOp.loop rest values1 (res ++ ires)
        | .err msg => .err msg
        | .panicked => .panicked
end

/-- `ApplyOp.Run`. -/
def ApplyOp.Run (Ops : List ProofOperator) (values : Stack) : Result Stack :=
  ApplyOp.loop Ops values []

/-! ## Decoders -/

/-- `OpDecoderAppend`. -/
def OpDecoderAppend (op : ProofOp) : Result ProofOperator :=
  match amino.DecodeByteSlice op.Data with
  | .err msg => .err msg
  | .panicked => .panicked
  | .ok (pref, n) =>
    match slice op.Data n op.Data.length with
    | none => .panicked
    | some bz =>
      match amino.DecodeByteSlice bz with
      | .err msg => .err msg
      | .panicked => .panicked
      | .ok (suf, n1) =>
        match slice bz n1 bz.length with
        | none => .panicked
        | some bz1 =>
          if bz1.length ≠ 0 then .err "vvv"
          else .ok (.AppendOp pref suf)

def OpDecoderSHA256 (_op : ProofOp) : Result ProofOperator := .ok .SHA256Op

def OpDecoderPrependLength (_op : ProofOp) : Result ProofOperator := .ok .PrependLengthOp

/-- `OpDecoderConcat`: the zero value `ConcatOp{}`. -/
def OpDecoderConcat (_op : ProofOp) : Result ProofOperator := .ok (.ConcatOp 0 0)

def OpDecoderLiftKey (op : ProofOp) : Result ProofOperator := .ok (.LiftKeyOp op.Key)

/-- `OpDecoderAssertValues`: the zero value `AssertValuesOp{}`. -/
def OpDecoderAssertValues (_op : ProofOp) : Result ProofOperator := .ok (.AssertValuesOp [])

/-- `OpDecoderApply`: the zero value `ApplyOp{}`. -/
def OpDecoderApply (_op : ProofOp) : Result ProofOperator := .ok (.ApplyOp [])

/-- Modelled from the spec: `ToProofOp`, which "assembles `{type, key, data}` from the
triple `(type(), get_key(), encode())`"; its source file is not among the
source files. -/
def ToProofOp (op : ProofOperator) : ProofOp :=
  { Type_ := op.Type_, Key := op.GetKey, Data := op.Encode }

/-- Modelled from the spec: the registry of `DefaultProofRuntime()`, "default
registrations: `append`, `sha256`, `prepend_length`, `lift_key`, `concat`,
`assert_values`, `apply`", each tag with the decoder of `operators.go` for it;
the runtime is not among the source files. -/
def DefaultProofRuntime (t : String) : Option (ProofOp → Result ProofOperator) :=
  if t = OpTypeAppend then some OpDecoderAppend
  else if t = OpTypeSHA256 then some OpDecoderSHA256
  else if t = OpTypePrependLength then some OpDecoderPrependLength
  else if t = OpTypeLiftKey then some OpDecoderLiftKey
  else if t = OpTypeConcat then some OpDecoderConcat
  else if t = OpTypeAssertValues then some OpDecoderAssertValues
  else if t = OpTypeApply then some OpDecoderApply
  else none

/-- Modelled from the spec: one step of `DecodeProof`, which "maps each `ProofOp` to
its operator via registry lookup; unknown types yield `UnknownOpType`". -/
def DecodeProofOp (pop : ProofOp) : Result ProofOperator :=
  match DefaultProofRuntime pop.Type_ with
  | some decoder => decoder pop
  | none => .err "UnknownOpType"

/-! ## `RunOps` -/

/-- The inner loop of `RunOps` over one program: each operator is handed the
current `values`, an error is turned into a panic. -/
def RunOps.inner : List ProofOperator → Stack → Result Stack
  | [], values => .ok values
  | op :: ops, values =>
    match op.Run values with
    | .ok values1 => RunOps.inner ops values1
    | .err _ => .panicked
    | .panicked => .panicked

/-- The outer loop of `RunOps` over the programs. -/
def RunOps.outer : List (List ProofOperator) → Stack → Result Stack
  | [], values => .ok values
  | ops :: opss, values =>
    match RunOps.inner ops values with
    | .ok values1 => RunOps.outer opss values1
    | .err msg => .err msg
    | .panicked => .panicked

/-- `RunOps(input, opss...)`; a nil `input` is `none`. -/
def RunOps (input : Option Bytes) (opss : List (List ProofOperator)) : Result Bytes :=
  let values : Stack := match input with
    | some v => [v]
    | none => []
  match RunOps.outer opss values with
  | .ok values1 =>
    match index0 values1 with
    | some v => .ok v
    | none => .panicked
  | .err msg => .err msg
  | .panicked => .panicked

/-! ## Grammar validators -/

abbrev Validator := List ProofOperator → Result (List ProofOperator)

namespace Grammar

/-- Modelled from the spec: `OpType(t)` "accepts a single-element prefix whose
`type() == t`; otherwise fails"; the combinators are not among the source
files. -/
def OpType (t : String) : Validator
  | [] => .err "GrammarMismatch"
  | op :: rest => if op.Type_ = t then .ok rest else .err "GrammarMismatch"

/-- Modelled from the spec: `Sequence(v₁, …, vₙ)` "threads the remaining list through
`v₁, v₂, …` in order; fails on the first sub-failure". -/
def Sequence : List Validator → Validator
  | [], ops => .ok ops
  | v :: vs, ops =>
    match v ops with
    | .ok rest => Sequence vs rest
    | .err msg => .err msg
    | .panicked => .panicked

/-- Modelled from the spec: `Option(v)` "attempts `v`; on failure returns the input
unchanged (success with no consumption)". -/
def Option (v : Validator) : Validator := fun ops =>
  match v ops with
  | .ok rest => .ok rest
  | _ => .ok ops

/-- The loop of `Repeat`: apply `v` while it succeeds and consumes. -/
def repeatLoop (v : Validator) : Nat → List ProofOperator → List ProofOperator
  | 0, ops => ops
  | fuel + 1, ops =>
    match v ops with
    | .ok rest => if rest.length < ops.length then repeatLoop v fuel rest else ops
    | _ => ops

/-- Modelled from the spec: `Repeat(v)` "greedily applies `v` until it fails to consume
more; returns the remainder".  Every round shortens the list, so `len(ops)`
rounds are enough. -/
def Repeat (v : Validator) : Validator := fun ops => .ok (repeatLoop v ops.length ops)

end Grammar

/-- Modelled from the spec: `ValidateProofOperators(validator, ops)` "runs the validator
and succeeds iff the returned remainder is empty". -/
def ValidateProofOperators (validator : Validator) (ops : List ProofOperator) : Result Unit :=
  match validator ops with
  | .ok [] => .ok ()
  | .ok (_ :: _) => .err "GrammarMismatch"
  | .err msg => .err msg
  | .panicked => .panicked

def opValidatorSimpleKVLeaf : Validator :=
  Grammar.Sequence [
    Grammar.OpType OpTypeSHA256,
    Grammar.OpType OpTypePrependLength,
    Grammar.OpType OpTypeLiftKey,
    Grammar.OpType OpTypePrependLength,
    Grammar.OpType OpTypeConcat]

def OpValidatorSimpleKVLeaf (ops : List ProofOperator) : Result (List ProofOperator) :=
  opValidatorSimpleKVLeaf ops

def opValidatorSimpleValue : Validator :=
  Grammar.Sequence [
    Grammar.Option OpValidatorSimpleKVLeaf,
    Grammar.OpType OpTypeAppend,
    Grammar.OpType OpTypeSHA256,
    Grammar.OpType OpTypeAssertValues,
    Grammar.Repeat (Grammar.Sequence [
      Grammar.OpType OpTypeAppend,
      Grammar.OpType OpTypeSHA256])]

def OpValidatorSimpleValue (ops : List ProofOperator) : Result (List ProofOperator) :=
  opValidatorSimpleValue ops

/-! ## Statements of the specification, for comparison with the code -/

/-- The step of `RunOps` as the specification words it: "if `argn() ≥ 0`,
invoke `run(values[:argn()])` and replace `values` with
`result ++ values[argn():]`; if `argn() < 0`, invoke `run(values)` and replace
`values` entirely with the result". -/
def RunOps.specStep (op : ProofOperator) (values : Stack) : Result Stack :=
  if 0 ≤ op.Argn then
    match op.Run (values.take op.Argn.toNat) with
    | .ok result => .ok (result ++ values.drop op.Argn.toNat)
    | .err msg => .err msg
    | .panicked => .panicked
  else op.Run values

/-- The operators `randomGenerateProofOperator` of `operators_test.go` can
return: an `AppendOp` with any two byte strings, `SHA256Op{}`,
`PrependLengthOp{}`, `ConcatOp{}` (both fields zero) and a `LiftKeyOp` with any
key.  The length of a Go slice fits an `int`, which is what the bound on the
two fields of `AppendOp` records. -/
def randomGenerateProofOperator : ProofOperator → Prop
  | .AppendOp Prefix Suffix => Prefix.length < 2 ^ 63 ∧ Suffix.length < 2 ^ 63
  | .SHA256Op => True
  | .PrependLengthOp => True
  | .ConcatOp Begin End => Begin = 0 ∧ End = 0
  | .LiftKeyOp _ => True
  | .AssertValuesOp _ => False
  | .ApplyOp _ => False

/-- Type tags of the operators of `SimpleKVLeafOp`, in order. -/
def simpleKVLeafTags : List String :=
  [OpTypeSHA256, OpTypePrependLength, OpTypeLiftKey, OpTypePrependLength, OpTypeConcat]

/-- The lists of type tags that the specification's `SimpleValue` describes:
optionally the five tags of the leaf; then `append`, `sha256`,
`assert_values`; then `n` times the pair `append`, `sha256`. -/
def SimpleValueShape (tags : List String) : Prop :=
  ∃ (leaf : Bool) (n : Nat),
    tags = (if leaf then simpleKVLeafTags else [])
      ++ [OpTypeAppend, OpTypeSHA256, OpTypeAssertValues]
      ++ (List.replicate n [OpTypeAppend, OpTypeSHA256]).flatten

/-- The inner arities `n_1, …, n_k` of an `ApplyOp`, as naturals. -/
def ApplyOp.argns (Ops : List ProofOperator) : List Nat :=
  Ops.map (fun op => op.Argn.toNat)

/-- The elements of `S` that belong to the inner operator at index `i`
(counting from 0): `S[n_1 + … + n_i : n_1 + … + n_i + n_{i+1}]`. -/
def ApplyOp.window (Ops : List ProofOperator) (S : Stack) (i : Nat) : Stack :=
  (S.drop ((ApplyOp.argns Ops).take i).sum).take ((ApplyOp.argns Ops).getD i 0)

/-- Inputs on which `Run` is meant to be called: an operator of arity 1 gets a
stack that is not empty, `ConcatOp` has `0 ≤ Begin ≤ End`, the inner operators
of an `ApplyOp` have a non-negative arity. -/
def ProofOperator.wellCalled : ProofOperator → Stack → Prop
  | .AppendOp _ _, values => values ≠ []
  | .SHA256Op, values => values ≠ []
  | .PrependLengthOp, values => values ≠ []
  | .ConcatOp Begin End, _ => 0 ≤ Begin ∧ Begin ≤ End
  | .LiftKeyOp _, _ => True
  | .AssertValuesOp _, _ => True
  | .ApplyOp Ops, _ => ∀ iop ∈ Ops, 0 ≤ iop.Argn

/-- The number a little-endian base-128 varint stands for: every byte carries
7 payload bits, the least significant group first. -/
def amino.uvarintValue : Bytes → Nat
  | [] => 0
  | b :: rest => b.toNat % 128 + 128 * amino.uvarintValue rest

/-- The byte string `bs` is the unsigned little-endian base-128 varint of `n`
as the specification words it: "each byte carries 7 payload bits; MSB set on all
but the last"; and it is the canonical one, with no zero byte at the end of a
varint of two bytes or more. -/
def amino.IsUvarint (n : Nat) (bs : Bytes) : Prop :=
  (∃ (front : Bytes) (last : UInt8), bs = front ++ [last] ∧
    (∀ b ∈ front, 128 ≤ b.toNat) ∧ last.toNat < 128 ∧ (front ≠ [] → last.toNat ≠ 0)) ∧
  amino.uvarintValue bs = n

/-! ## The hash -/

/-- The digest of `"hello"` computed by the model is the published SHA-256
value `2cf24dba…938b9824`. -/
theorem SHA256.sum_hello :
    SHA256.sum [0x68, 0x65, 0x6c, 0x6c, 0x6f] =
      [0x2c, 0xf2, 0x4d, 0xba, 0x5f, 0xb0, 0xa3, 0x0e, 0x26, 0xe8, 0x3b, 0x2a, 0xc5, 0xb9, 0xe2,
       0x9e, 0x1b, 0x16, 0x1e, 0x5c, 0x1f, 0xa7, 0x42, 0x5e, 0x73, 0x04, 0x33, 0x62, 0x93, 0x8b,
       0x98, 0x24] := by
  rfl

/-! ## Go slice expressions -/

theorem slice_of_le {α : Type} (s : List α) (lo hi : Nat) (h1 : lo ≤ hi) (h2 : hi ≤ s.length) :
    slice s (lo : Int) (hi : Int) = some ((s.drop lo).take (hi - lo)) := by
  have h : (0 : Int) ≤ lo ∧ (lo : Int) ≤ hi ∧ (hi : Int) ≤ (s.length : Int) := by omega
  simp only [slice, h, and_self, if_true, Int.toNat_ofNat]

theorem slice_from {α : Type} (s : List α) (lo : Nat) (h : lo ≤ s.length) :
    slice s (lo : Int) (s.length : Int) = some (s.drop lo) := by
  rw [slice_of_le s lo s.length h (Nat.le_refl _)]
  simp

theorem slice_to {α : Type} (s : List α) (hi : Nat) (h : hi ≤ s.length) :
    slice s 0 (hi : Int) = some (s.take hi) := by
  have := slice_of_le s 0 hi (Nat.zero_le _) h
  simpa using this

/-! ## The byte-slice codec round trip -/

theorem amino.byte_flag : ∀ y, y < 256 →
    (128 ≤ (y ||| 128) % 256 ∧ ((y ||| 128) % 256) &&& 127 = y % 128) := by
  set_option maxRecDepth 100000 in decide

theorem amino.lor_shiftLeft (acc v s : Nat) (h : acc < 2 ^ s) :
    acc ||| (v <<< s) = acc + v * 2 ^ s := by
  rw [Nat.shiftLeft_eq, Nat.lor_comm, Nat.mul_comm, ← Nat.mul_add_lt_is_or h, Nat.add_comm]

theorem amino.putUvarint_ne_nil (fuel x : Nat) : putUvarint (fuel + 1) x ≠ [] := by
  unfold putUvarint
  split <;> simp

theorem amino.uvarintLoop_putUvarint (fuel : Nat) :
    ∀ (x i s acc : Nat) (tail : Bytes), 0 < fuel → x < 2 ^ (7 * fuel) → i + fuel ≤ 10 →
      s = 7 * i → acc < 2 ^ s → acc + x * 2 ^ s < 2 ^ 64 →
      uvarintLoop (putUvarint fuel x ++ tail) i s acc
        = (acc + x * 2 ^ s, (i : Int) + ((putUvarint fuel x).length : Int)) := by
  induction fuel with
  | zero => intro x i s acc tail h; omega
  | succ fuel ih =>
    intro x i s acc tail _ hx hi hs hacc htot
    by_cases hlt : x < 128
    · have hb : (UInt8.ofNat x).toNat = x := by
        show x % 256 = x
        omega
      have hguard : ¬ (i > 9 ∨ (i = 9 ∧ x > 1)) := by
        rintro (h | ⟨h, h1⟩)
        · omega
        · subst h
          subst hs
          norm_num at htot
          omega
      have hval : (acc ||| (x <<< s)) % 2 ^ 64 = acc + x * 2 ^ s := by
        rw [amino.lor_shiftLeft acc x s hacc]
        exact Nat.mod_eq_of_lt htot
      simp only [putUvarint, hlt, if_true, List.singleton_append, uvarintLoop, hb, hguard,
        if_false, hval, List.length_singleton]
      rfl
    · have hy := amino.byte_flag (x % 256) (Nat.mod_lt _ (by norm_num))
      have hmod : x % 256 % 128 = x % 128 := by omega
      have hb : (UInt8.ofNat (x % 256 ||| 128)).toNat = (x % 256 ||| 128) % 256 := rfl
      have hnot : ¬ (UInt8.ofNat (x % 256 ||| 128)).toNat < 128 := by
        rw [hb]
        omega
      have hpow : 2 ^ (s + 7) = 2 ^ s * 128 := by rw [pow_add]; norm_num
      have hdm : x = 128 * (x / 128) + x % 128 := (Nat.div_add_mod x 128).symm
      have hlow : (x % 128) * 2 ^ s ≤ 127 * 2 ^ s :=
        Nat.mul_le_mul_right _ (by omega)
      have hsplit : acc + x % 128 * 2 ^ s + x / 128 * (2 ^ s * 128) = acc + x * 2 ^ s := by
        conv_rhs => rw [hdm]
        ring
      have hle : acc + x % 128 * 2 ^ s ≤ acc + x * 2 ^ s := by
        rw [← hsplit]
        exact Nat.le_add_right _ _
      have hacc1 : (acc ||| (((UInt8.ofNat (x % 256 ||| 128)).toNat &&& 127) <<< s)) % 2 ^ 64
          = acc + (x % 128) * 2 ^ s := by
        rw [hb, hy.2, hmod, amino.lor_shiftLeft acc _ s hacc]
        exact Nat.mod_eq_of_lt (by omega)
      have hx1 : x / 128 < 2 ^ (7 * fuel) := by
        apply Nat.div_lt_of_lt_mul
        have : 2 ^ (7 * (fuel + 1)) = 128 * 2 ^ (7 * fuel) := by
          rw [Nat.mul_add, pow_add]
          norm_num
          ring
        omega
      have hfuel : 0 < fuel := by
        rcases Nat.eq_zero_or_pos fuel with h | h
        · subst h
          have : 1 ≤ x / 128 := (Nat.one_le_div_iff (by norm_num)).2 (by omega)
          simp at hx1
          omega
        · exact h
      have hrec := ih (x / 128) (i + 1) (s + 7) (acc + (x % 128) * 2 ^ s) tail hfuel hx1
        (by omega) (by omega) (by rw [hpow]; omega) (by rw [hpow, hsplit]; exact htot)
      have hshift : x >>> 7 = x / 128 := by rw [Nat.shiftRight_eq_div_pow]
      rw [hpow, hsplit] at hrec
      simp only [putUvarint, hlt, if_false, List.cons_append, uvarintLoop, hnot, hacc1, hshift,
        hrec, List.length_cons]
      congr 1
      push_cast
      omega

theorem amino.DecodeUvarint_EncodeUvarint (u : Nat) (tail : Bytes) (hu : u < 2 ^ 64) :
    DecodeUvarint (EncodeUvarint u ++ tail) = .ok (u, (EncodeUvarint u).length) := by
  have h := amino.uvarintLoop_putUvarint 10 u 0 0 0 tail (by norm_num)
    (lt_of_lt_of_le hu (by norm_num)) (by norm_num) (by norm_num) (by norm_num) (by simpa using hu)
  have hne : (putUvarint 10 u).length ≠ 0 := by
    simpa using amino.putUvarint_ne_nil 9 u
  have hpos : ¬ ((0 : Int) + ((putUvarint 10 u).length : Int) = 0) := by omega
  have hneg : ¬ ((0 : Int) + ((putUvarint 10 u).length : Int) < 0) := by omega
  simp only [Nat.mul_zero, pow_zero, Nat.mul_one, Nat.zero_add, Nat.cast_zero] at h
  simp only [DecodeUvarint, EncodeUvarint, Nat.mod_eq_of_lt hu, h, hpos, hneg, if_false]
  simp

theorem amino.DecodeByteSlice_EncodeByteSlice (bz tail : Bytes) (hlen : bz.length < 2 ^ 63) :
    DecodeByteSlice (EncodeByteSlice bz ++ tail)
      = .ok (bz, (EncodeByteSlice bz).length) := by
  have h := amino.DecodeUvarint_EncodeUvarint bz.length (bz ++ tail) (by omega)
  have hnot : ¬ 2 ^ 63 ≤ bz.length := by omega
  simp only [DecodeByteSlice, EncodeByteSlice, List.append_assoc, h, hnot, if_false]
  simp

theorem OpDecoderAppend_Encode (t : String) (key Prefix Suffix : Bytes)
    (hp : Prefix.length < 2 ^ 63) (hs : Suffix.length < 2 ^ 63) :
    OpDecoderAppend ⟨t, key, (ProofOperator.AppendOp Prefix Suffix).Encode⟩
      = .ok (.AppendOp Prefix Suffix) := by
  have h1 := amino.DecodeByteSlice_EncodeByteSlice Prefix (amino.EncodeByteSlice Suffix) hp
  have h2 := amino.DecodeByteSlice_EncodeByteSlice Suffix [] hs
  simp only [List.append_nil] at h2
  have hs1 := slice_from (amino.EncodeByteSlice Prefix ++ amino.EncodeByteSlice Suffix)
    (amino.EncodeByteSlice Prefix).length (by simp)
  have hs2 := slice_from (amino.EncodeByteSlice Suffix) (amino.EncodeByteSlice Suffix).length
    (Nat.le_refl _)
  simp only [List.drop_left, List.drop_length] at hs1 hs2
  simp only [OpDecoderAppend, ProofOperator.Encode, h1, hs1, h2, hs2]
  simp

/-! ## `RunOps`: how an operator meets the stack -/

theorem RunOps.inner_append (p q : List ProofOperator) (values : Stack) :
    RunOps.inner (p ++ q) values =
      match RunOps.inner p values with
      | .ok values1 => RunOps.inner q values1
      | .err msg => .err msg
      | .panicked => .panicked := by
  induction p generalizing values with
  | nil => rfl
  | cons op p ih =>
    simp only [List.cons_append, RunOps.inner]
    cases op.Run values with
    | ok values1 => exact ih values1
    | err msg => rfl
    | panicked => rfl

theorem RunOps.outer_append (p q : List (List ProofOperator)) (values : Stack) :
    RunOps.outer (p ++ q) values =
      match RunOps.outer p values with
      | .ok values1 => RunOps.outer q values1
      | .err msg => .err msg
      | .panicked => .panicked := by
  induction p generalizing values with
  | nil => rfl
  | cons ops p ih =>
    simp only [List.cons_append, RunOps.outer]
    cases RunOps.inner ops values with
    | ok values1 => exact ih values1
    | err msg => rfl
    | panicked => rfl

theorem RunOps.outer_singleton (ops : List ProofOperator) (values : Stack) :
    RunOps.outer [ops] values = RunOps.inner ops values := by
  simp only [RunOps.outer]
  cases RunOps.inner ops values <;> rfl

/-- C1, as stated, fails: on the stack `[a, b]` the loop of `RunOps` hands
`SHA256Op` (arity 1) the whole stack and keeps only what `Run` returns,
`[SHA256(a)]`, whereas the step of the specification gives `[SHA256(a), b]`. -/
theorem RunOps_step_ne_specStep :
    RunOps.inner [.SHA256Op] [[1], [2]] = .ok [SHA256.sum [1]] ∧
    RunOps.specStep .SHA256Op [[1], [2]] = .ok [SHA256.sum [1], [2]] ∧
    RunOps.inner [.SHA256Op] [[1], [2]] ≠ RunOps.specStep .SHA256Op [[1], [2]] := by
  have h1 : RunOps.inner [.SHA256Op] [[1], [2]] = .ok [SHA256.sum [1]] := rfl
  have h2 : RunOps.specStep .SHA256Op [[1], [2]] = .ok [SHA256.sum [1], [2]] := rfl
  refine ⟨h1, h2, ?_⟩
  rw [h1, h2]
  simp

/-- C1, amended: whatever `Argn()` says, `RunOps` runs every operator on the
whole stack `S` reached before it (after the earlier programs `opss` and the
earlier operators `pre` of its own program), and the stack after the step is
what `op.Run(S)` returns. -/
theorem RunOps_step_whole_stack (opss : List (List ProofOperator)) (pre : List ProofOperator)
    (op : ProofOperator) (S0 S S1 : Stack)
    (hreach : RunOps.outer (opss ++ [pre]) S0 = .ok S) (hrun : op.Run S = .ok S1) :
    RunOps.outer (opss ++ [pre ++ [op]]) S0 = .ok S1 := by
  rw [RunOps.outer_append] at hreach ⊢
  cases h : RunOps.outer opss S0 with
  | ok values =>
    rw [h] at hreach
    simp only [RunOps.outer_singleton] at hreach ⊢
    rw [RunOps.inner_append, hreach]
    simp only [RunOps.inner, hrun]
  | err msg => rw [h] at hreach; cases hreach
  | panicked => rw [h] at hreach; cases hreach

theorem RunOps_step_whole_stack_witness :
    (RunOps.outer ([] ++ [[.LiftKeyOp [2]]]) [[1]] = .ok [[2], [1]] ∧
      ProofOperator.SHA256Op.Run [[2], [1]] = .ok [SHA256.sum [2]]) ∧
    RunOps.outer ([] ++ [[.LiftKeyOp [2]] ++ [.SHA256Op]]) [[1]] = .ok [SHA256.sum [2]] :=
  ⟨⟨rfl, rfl⟩,
   RunOps_step_whole_stack [] [.LiftKeyOp [2]] .SHA256Op [[1]] [[2], [1]] [SHA256.sum [2]]
     rfl rfl⟩

/-! ## Encoding and decoding -/

/-- C2: every operator the test generator produces survives
`ToProofOp` followed by the decoder registered for its type, unchanged. -/
theorem DecodeProofOp_ToProofOp_generated (op : ProofOperator)
    (hgen : randomGenerateProofOperator op) :
    DecodeProofOp (ToProofOp op) = .ok op := by
  cases op with
  | AppendOp Prefix Suffix =>
    have h := OpDecoderAppend_Encode OpTypeAppend [] Prefix Suffix hgen.1 hgen.2
    exact h
  | SHA256Op => rfl
  | PrependLengthOp => rfl
  | ConcatOp Begin End =>
    obtain ⟨hb, he⟩ := hgen
    subst hb
    subst he
    rfl
  | LiftKeyOp Key => rfl
  | AssertValuesOp Values => exact absurd hgen (by simp [randomGenerateProofOperator])
  | ApplyOp Ops => exact absurd hgen (by simp [randomGenerateProofOperator])

theorem DecodeProofOp_ToProofOp_generated_witness :
    randomGenerateProofOperator (.AppendOp [1, 2] [3]) ∧
    DecodeProofOp (ToProofOp (.AppendOp [1, 2] [3])) = .ok (.AppendOp [1, 2] [3]) :=
  have hgen : randomGenerateProofOperator (.AppendOp [1, 2] [3]) :=
    show [1, 2].length < 2 ^ 63 ∧ [3].length < 2 ^ 63 by decide
  ⟨hgen, DecodeProofOp_ToProofOp_generated (.AppendOp [1, 2] [3]) hgen⟩

/-- C3 at three failing inputs: the decoders of `concat`, `assert_values`
and `apply` return the zero value of their type whatever was encoded, and the
decoded operator runs differently from the original. -/
theorem OpDecoder_zero_value_diverges :
    (DecodeProofOp (ToProofOp (.ConcatOp 0 2)) = .ok (.ConcatOp 0 0) ∧
      (ProofOperator.ConcatOp 0 2).Run [[1], [2]] = .ok [[1, 2]] ∧
      (ProofOperator.ConcatOp 0 0).Run [[1], [2]] = .ok [[], [1], [2]]) ∧
    (DecodeProofOp (ToProofOp (.AssertValuesOp [[1]])) = .ok (.AssertValuesOp []) ∧
      (ProofOperator.AssertValuesOp [[1]]).Run [[1]] = .ok [[1]] ∧
      (ProofOperator.AssertValuesOp []).Run [[1]] = .err "ttt") ∧
    (DecodeProofOp (ToProofOp (.ApplyOp [.AppendOp [7] [8]])) = .ok (.ApplyOp []) ∧
      (ProofOperator.ApplyOp [.AppendOp [7] [8]]).Run [[1]] = .ok [[7, 1, 8]] ∧
      (ProofOperator.ApplyOp []).Run [[1]] = .ok []) := by
  refine ⟨⟨rfl, by decide, by decide⟩, ⟨rfl, by decide, by decide⟩, ⟨rfl, by decide, by decide⟩⟩

/-! ## `RunOps`: the final stack -/

/-- C4, as stated, fails: `LiftKeyOp` runs without error and leaves two elements
on the stack, and `RunOps` returns the one at index 0 without reporting
anything. -/
theorem RunOps_two_elements_returned :
    RunOps.outer [[.LiftKeyOp [9]]] [[1]] = .ok [[9], [1]] ∧
    RunOps (some [1]) [[.LiftKeyOp [9]]] = .ok [9] := by
  decide

/-- C4, amended: when every operator runs without error, `RunOps` fails (the
index expression `values[0]` panics) if the final stack is empty and returns
the element at index 0 if the final stack has one element or more. -/
theorem RunOps_final_stack (input : Option Bytes) (opss : List (List ProofOperator))
    (final : Stack)
    (hrun : RunOps.outer opss (match input with | some v => [v] | none => []) = .ok final) :
    RunOps input opss = match final with
      | [] => .panicked
      | v :: _ => .ok v := by
  simp only [RunOps, hrun]
  cases final <;> rfl

theorem RunOps_final_stack_witness :
    RunOps.outer [[.LiftKeyOp [9]]] [[1]] = .ok [[9], [1]] ∧
    RunOps (some [1]) [[.LiftKeyOp [9]]] = .ok [9] :=
  ⟨rfl, RunOps_final_stack (some [1]) [[.LiftKeyOp [9]]] [[9], [1]] rfl⟩

/-! ## The grammar of `SimpleValueOp` -/

theorem Grammar.OpType_cons (t : String) (op : ProofOperator) (rest : List ProofOperator) :
    Grammar.OpType t (op :: rest)
      = if op.Type_ = t then .ok rest else .err "GrammarMismatch" := rfl

theorem Grammar.Sequence_cons (v : Validator) (vs : List Validator) (ops : List ProofOperator) :
    Grammar.Sequence (v :: vs) ops =
      match v ops with
      | .ok rest => Grammar.Sequence vs rest
      | .err msg => .err msg
      | .panicked => .panicked := rfl

theorem Grammar.OpType_ok_iff (t : String) (ops rest : List ProofOperator) :
    Grammar.OpType t ops = .ok rest ↔ ∃ op, ops = op :: rest ∧ op.Type_ = t := by
  cases ops with
  | nil => simp [Grammar.OpType]
  | cons op ops =>
    rw [Grammar.OpType_cons]
    by_cases h : op.Type_ = t
    · simp only [h, if_true, Result.ok.injEq, List.cons.injEq]
      constructor
      · intro hr
        exact ⟨op, ⟨rfl, hr⟩, h⟩
      · rintro ⟨op1, ⟨_, hr⟩, _⟩
        exact hr
    · simp only [h, if_false]
      constructor
      · intro hr
        cases hr
      · rintro ⟨op1, h1, h2⟩
        cases h1
        exact absurd h2 h

theorem Grammar.Sequence_OpType_ok_iff (t : String) (vs : List Validator)
    (ops rest : List ProofOperator) :
    Grammar.Sequence (Grammar.OpType t :: vs) ops = .ok rest ↔
      ∃ op tl, ops = op :: tl ∧ op.Type_ = t ∧ Grammar.Sequence vs tl = .ok rest := by
  rw [Grammar.Sequence_cons]
  constructor
  · intro h
    cases hv : Grammar.OpType t ops with
    | ok tl =>
      rw [hv] at h
      obtain ⟨op, hops, ht⟩ := (Grammar.OpType_ok_iff t ops tl).1 hv
      exact ⟨op, tl, hops, ht, h⟩
    | err msg => rw [hv] at h; cases h
    | panicked => rw [hv] at h; cases h
  · rintro ⟨op, tl, hops, ht, h⟩
    have hv : Grammar.OpType t ops = .ok tl := (Grammar.OpType_ok_iff t ops tl).2 ⟨op, hops, ht⟩
    rw [hv]
    exact h

theorem Grammar.Sequence_nil_ok_iff (ops rest : List ProofOperator) :
    Grammar.Sequence [] ops = .ok rest ↔ ops = rest := by
  simp [Grammar.Sequence]

theorem opValidatorSimpleKVLeaf_ok_iff (ops rest : List ProofOperator) :
    opValidatorSimpleKVLeaf ops = .ok rest ↔
      ∃ o1 o2 o3 o4 o5, ops = o1 :: o2 :: o3 :: o4 :: o5 :: rest ∧
        o1.Type_ = OpTypeSHA256 ∧ o2.Type_ = OpTypePrependLength ∧ o3.Type_ = OpTypeLiftKey ∧
        o4.Type_ = OpTypePrependLength ∧ o5.Type_ = OpTypeConcat := by
  simp only [opValidatorSimpleKVLeaf, Grammar.Sequence_OpType_ok_iff, Grammar.Sequence_nil_ok_iff]
  constructor
  · rintro ⟨o1, t1, h1, e1, o2, t2, h2, e2, o3, t3, h3, e3, o4, t4, h4, e4, o5, t5, h5, e5, h6⟩
    subst h1 h2 h3 h4 h5 h6
    exact ⟨o1, o2, o3, o4, o5, rfl, e1, e2, e3, e4, e5⟩
  · rintro ⟨o1, o2, o3, o4, o5, h, e1, e2, e3, e4, e5⟩
    subst h
    exact ⟨o1, _, rfl, e1, o2, _, rfl, e2, o3, _, rfl, e3, o4, _, rfl, e4, o5, _, rfl, e5, rfl⟩

/-- The pair `append`, `sha256` that `SimpleValueOp` repeats. -/
theorem Grammar.pair_ok_iff (ops rest : List ProofOperator) :
    Grammar.Sequence [Grammar.OpType OpTypeAppend, Grammar.OpType OpTypeSHA256] ops = .ok rest ↔
      ∃ o1 o2, ops = o1 :: o2 :: rest ∧ o1.Type_ = OpTypeAppend ∧ o2.Type_ = OpTypeSHA256 := by
  simp only [Grammar.Sequence_OpType_ok_iff, Grammar.Sequence_nil_ok_iff]
  constructor
  · rintro ⟨o1, t1, h1, e1, o2, t2, h2, e2, h3⟩
    subst h1 h2 h3
    exact ⟨o1, o2, rfl, e1, e2⟩
  · rintro ⟨o1, o2, h, e1, e2⟩
    subst h
    exact ⟨o1, _, rfl, e1, o2, _, rfl, e2, rfl⟩

theorem Grammar.repeatLoop_stop (v : Validator) (fuel : Nat) (ops : List ProofOperator)
    (h : ∀ rest, v ops ≠ .ok rest) : Grammar.repeatLoop v (fuel + 1) ops = ops := by
  cases hv : v ops with
  | ok rest => exact absurd hv (h rest)
  | err msg => simp only [Grammar.repeatLoop, hv]
  | panicked => simp only [Grammar.repeatLoop, hv]

theorem Grammar.repeatLoop_pair_nil_iff (fuel : Nat) :
    ∀ ops : List ProofOperator, ops.length ≤ fuel →
      (Grammar.repeatLoop
          (Grammar.Sequence [Grammar.OpType OpTypeAppend, Grammar.OpType OpTypeSHA256]) fuel ops = []
        ↔ ∃ n, ops.map ProofOperator.Type_
            = (List.replicate n [OpTypeAppend, OpTypeSHA256]).flatten) := by
  induction fuel with
  | zero =>
    intro ops hlen
    have hnil : ops = [] := List.length_eq_zero.1 (Nat.le_zero.1 hlen)
    subst hnil
    simp only [Grammar.repeatLoop, List.map_nil, true_iff]
    exact ⟨0, rfl⟩
  | succ fuel ih =>
    intro ops hlen
    by_cases hex : ∃ rest, Grammar.Sequence
        [Grammar.OpType OpTypeAppend, Grammar.OpType OpTypeSHA256] ops = .ok rest
    · obtain ⟨rest, hv⟩ := hex
      obtain ⟨o1, o2, hops, e1, e2⟩ := (Grammar.pair_ok_iff ops rest).1 hv
      subst hops
      have hshort : rest.length < (o1 :: o2 :: rest).length := by
        simp only [List.length_cons]
        omega
      simp only [Grammar.repeatLoop, hv, hshort, if_true]
      rw [ih rest (by simp only [List.length_cons] at hlen; omega)]
      constructor
      · rintro ⟨n, hn⟩
        refine ⟨n + 1, ?_⟩
        simp [List.replicate_succ, hn, e1, e2]
      · rintro ⟨n, hn⟩
        cases n with
        | zero => simp at hn
        | succ n =>
          refine ⟨n, ?_⟩
          simpa [List.replicate_succ, e1, e2] using hn
    · rw [Grammar.repeatLoop_stop _ fuel ops (fun rest h => hex ⟨rest, h⟩)]
      cases ops with
      | nil =>
        simp only [List.map_nil, true_iff]
        exact ⟨0, rfl⟩
      | cons o1 tl =>
        constructor
        · intro h
          cases h
        · rintro ⟨n, hn⟩
          exfalso
          cases n with
          | zero => simp at hn
          | succ n =>
            cases tl with
            | nil => simp [List.replicate_succ] at hn
            | cons o2 rest =>
              simp only [List.replicate_succ, List.flatten_cons, List.map_cons, List.cons_append,
                List.nil_append, List.cons.injEq] at hn
              exact hex ⟨rest, (Grammar.pair_ok_iff _ rest).2 ⟨o1, o2, rfl, hn.1, hn.2.1⟩⟩

theorem ValidateProofOperators_ok_iff (v : Validator) (ops : List ProofOperator) :
    ValidateProofOperators v ops = .ok () ↔ v ops = .ok [] := by
  unfold ValidateProofOperators
  cases v ops with
  | ok rest => cases rest <;> simp
  | err msg => simp
  | panicked => simp

/-- What follows the optional leaf in `SimpleValueOp`. -/
theorem Grammar.simpleValue_tail_ok_iff (ops : List ProofOperator) :
    Grammar.Sequence [
        Grammar.OpType OpTypeAppend,
        Grammar.OpType OpTypeSHA256,
        Grammar.OpType OpTypeAssertValues,
        Grammar.Repeat (Grammar.Sequence [
          Grammar.OpType OpTypeAppend,
          Grammar.OpType OpTypeSHA256])] ops = .ok [] ↔
      ∃ n, ops.map ProofOperator.Type_
        = [OpTypeAppend, OpTypeSHA256, OpTypeAssertValues]
          ++ (List.replicate n [OpTypeAppend, OpTypeSHA256]).flatten := by
  have hrep : ∀ tl : List ProofOperator,
      Grammar.Sequence [Grammar.Repeat (Grammar.Sequence [
          Grammar.OpType OpTypeAppend, Grammar.OpType OpTypeSHA256])] tl = .ok [] ↔
        ∃ n, tl.map ProofOperator.Type_
          = (List.replicate n [OpTypeAppend, OpTypeSHA256]).flatten := by
    intro tl
    rw [← Grammar.repeatLoop_pair_nil_iff tl.length tl (Nat.le_refl _)]
    simp [Grammar.Sequence, Grammar.Repeat]
  simp only [Grammar.Sequence_OpType_ok_iff, hrep]
  constructor
  · rintro ⟨o1, t1, h1, e1, o2, t2, h2, e2, o3, t3, h3, e3, n, hn⟩
    subst h1 h2 h3
    exact ⟨n, by simp [e1, e2, e3, hn]⟩
  · rintro ⟨n, hn⟩
    rcases ops with _ | ⟨o1, _ | ⟨o2, _ | ⟨o3, tl⟩⟩⟩
    · simp at hn
    · simp at hn
    · simp at hn
    · simp only [List.map_cons, List.cons_append, List.nil_append, List.cons.injEq] at hn
      exact ⟨o1, _, rfl, hn.1, o2, _, rfl, hn.2.1, o3, _, rfl, hn.2.2.1, n, hn.2.2.2⟩

/-- C5: `ValidateProofOperators(OpValidatorSimpleValue, ops)` succeeds exactly
when the type tags of `ops` are, optionally, the five tags of the leaf, then
`append`, `sha256`, `assert_values`, then any number of pairs `append`,
`sha256`, and nothing else; `[SHA256Op, SHA256Op]` is rejected. -/
theorem ValidateProofOperators_SimpleValue_iff (ops : List ProofOperator) :
    (ValidateProofOperators OpValidatorSimpleValue ops = .ok ()
      ↔ SimpleValueShape (ops.map ProofOperator.Type_)) ∧
    ValidateProofOperators OpValidatorSimpleValue [.SHA256Op, .SHA256Op]
      = .err "GrammarMismatch" := by
  refine ⟨?_, by decide⟩
  rw [ValidateProofOperators_ok_iff]
  unfold OpValidatorSimpleValue opValidatorSimpleValue SimpleValueShape
  rw [Grammar.Sequence_cons]
  by_cases hex : ∃ rest, opValidatorSimpleKVLeaf ops = .ok rest
  · obtain ⟨rest, hleaf⟩ := hex
    have hopt : Grammar.Option OpValidatorSimpleKVLeaf ops = .ok rest := by
      simp only [Grammar.Option, OpValidatorSimpleKVLeaf, hleaf]
    obtain ⟨o1, o2, o3, o4, o5, hops, e1, e2, e3, e4, e5⟩ :=
      (opValidatorSimpleKVLeaf_ok_iff ops rest).1 hleaf
    subst hops
    rw [hopt]
    simp only []
    rw [Grammar.simpleValue_tail_ok_iff]
    constructor
    · rintro ⟨n, hn⟩
      exact ⟨true, n, by simp [simpleKVLeafTags, e1, e2, e3, e4, e5, hn]⟩
    · rintro ⟨leaf, n, h⟩
      cases leaf with
      | true =>
        refine ⟨n, ?_⟩
        simpa [simpleKVLeafTags, e1, e2, e3, e4, e5] using h
      | false =>
        exfalso
        simp only [List.map_cons, Bool.false_eq_true, if_false, List.nil_append,
          List.cons_append, List.cons.injEq] at h
        rw [e1] at h
        exact absurd h.1 (by decide)
  · have hopt : Grammar.Option OpValidatorSimpleKVLeaf ops = .ok ops := by
      simp only [Grammar.Option, OpValidatorSimpleKVLeaf]
      cases hv : opValidatorSimpleKVLeaf ops with
      | ok rest => exact absurd ⟨rest, hv⟩ hex
      | err msg => rfl
      | panicked => rfl
    rw [hopt]
    simp only []
    rw [Grammar.simpleValue_tail_ok_iff]
    constructor
    · rintro ⟨n, hn⟩
      exact ⟨false, n, by simpa using hn⟩
    · rintro ⟨leaf, n, h⟩
      cases leaf with
      | false => exact ⟨n, by simpa using h⟩
      | true =>
        exfalso
        rcases ops with _ | ⟨o1, _ | ⟨o2, _ | ⟨o3, _ | ⟨o4, _ | ⟨o5, tl⟩⟩⟩⟩⟩
        · simp [simpleKVLeafTags] at h
        · simp [simpleKVLeafTags] at h
        · simp [simpleKVLeafTags] at h
        · simp [simpleKVLeafTags] at h
        · simp [simpleKVLeafTags] at h
        · simp only [simpleKVLeafTags, List.map_cons, if_true, List.cons_append,
            List.cons.injEq] at h
          exact hex ⟨tl, (opValidatorSimpleKVLeaf_ok_iff _ tl).2
            ⟨o1, o2, o3, o4, o5, rfl, h.1, h.2.1, h.2.2.1, h.2.2.2.1, h.2.2.2.2.1⟩⟩

/-! ## `ConcatOp` -/

theorem ConcatOp.join_eq_flatten (vs : Stack) : ConcatOp.join vs = vs.flatten := by
  have h : ∀ (acc : Bytes) (l : Stack),
      l.foldl (fun joined v => joined ++ v) acc = acc ++ l.flatten := by
    intro acc l
    induction l generalizing acc with
    | nil => simp
    | cons v l ih => simp [ih]
  simpa [ConcatOp.join] using h [] vs

theorem ConcatOp.Run_of_le (b e : Nat) (S : Stack) (hbe : b ≤ e) (he : e ≤ S.length) :
    ConcatOp.Run (b : Int) (e : Int) S
      = .ok (S.take b ++ [((S.drop b).take (e - b)).flatten] ++ S.drop e) := by
  have hguard : ¬ ((S.length : Int) < (e : Int)) := by omega
  simp only [ConcatOp.Run, hguard, if_false, slice_to S b (by omega), slice_of_le S b e hbe he,
    slice_from S e he, ConcatOp.join_eq_flatten]

theorem ConcatOp_Run_of_bounds (Begin End : Int) (S : Stack)
    (h0 : 0 ≤ Begin) (hbe : Begin ≤ End) (he : End ≤ (S.length : Int)) :
    (ProofOperator.ConcatOp Begin End).Run S
      = .ok (S.take Begin.toNat
          ++ [((S.drop Begin.toNat).take (End.toNat - Begin.toNat)).flatten]
          ++ S.drop End.toNat) := by
  obtain ⟨b, rfl⟩ := Int.eq_ofNat_of_zero_le h0
  obtain ⟨e, rfl⟩ := Int.eq_ofNat_of_zero_le (le_trans h0 hbe)
  simp only [ProofOperator.Run, Int.toNat_ofNat]
  exact ConcatOp.Run_of_le b e S (by omega) (by omega)

/-- C6: with `0 ≤ Begin ≤ End ≤ len(S)`, `ConcatOp.Run(S)` succeeds and returns
`S[0:Begin] ++ [S[Begin] || … || S[End-1]] ++ S[End:]`, a stack of length
`len(S) - (End - Begin) + 1`. -/
theorem ConcatOp_Run_spec (Begin End : Int) (S : Stack)
    (h0 : 0 ≤ Begin) (hbe : Begin ≤ End) (he : End ≤ (S.length : Int)) :
    (ProofOperator.ConcatOp Begin End).Run S
      = .ok (S.take Begin.toNat
          ++ [((S.drop Begin.toNat).take (End.toNat - Begin.toNat)).flatten]
          ++ S.drop End.toNat) ∧
    (S.take Begin.toNat
          ++ [((S.drop Begin.toNat).take (End.toNat - Begin.toNat)).flatten]
          ++ S.drop End.toNat).length
      = S.length - (End.toNat - Begin.toNat) + 1 := by
  refine ⟨ConcatOp_Run_of_bounds Begin End S h0 hbe he, ?_⟩
  obtain ⟨b, rfl⟩ := Int.eq_ofNat_of_zero_le h0
  obtain ⟨e, rfl⟩ := Int.eq_ofNat_of_zero_le (le_trans h0 hbe)
  have hbe1 : b ≤ e := by omega
  have he1 : e ≤ S.length := by omega
  simp only [Int.toNat_ofNat, List.length_append, List.length_take, List.length_drop,
    List.length_singleton]
  omega

theorem ConcatOp_Run_spec_witness :
    ((0 : Int) ≤ 1 ∧ (1 : Int) ≤ 3 ∧ (3 : Int) ≤ (([[1], [2], [3], [4]] : Stack).length : Int)) ∧
    (ProofOperator.ConcatOp 1 3).Run [[1], [2], [3], [4]] = .ok [[1], [2, 3], [4]] :=
  ⟨by decide, (ConcatOp_Run_spec 1 3 [[1], [2], [3], [4]] (by decide) (by decide) (by decide)).1⟩

/-! ## `AssertValuesOp` -/

theorem AssertValuesOp.mem_accepted (Values : List Bytes) (v : Bytes) :
    v ∈ AssertValuesOp.accepted Values ↔ v ∈ Values := by
  have h : ∀ (l acc : List Bytes),
      v ∈ l.foldl (fun acc v => acc.insert v) acc ↔ v ∈ acc ∨ v ∈ l := by
    intro l
    induction l with
    | nil => simp
    | cons w l ih =>
      intro acc
      simp only [List.foldl_cons, ih, List.mem_insert_iff, List.mem_cons]
      tauto
  simpa [AssertValuesOp.accepted] using h Values []

theorem AssertValuesOp.check_iff (accepted : List Bytes) (S : Stack) :
    AssertValuesOp.check accepted S = true ↔ ∀ v ∈ S, v ∈ accepted := by
  induction S with
  | nil => simp [AssertValuesOp.check]
  | cons v S ih =>
    by_cases hv : v ∈ accepted
    · simp [AssertValuesOp.check, hv, ih]
    · simp [AssertValuesOp.check, hv]

/-- C7: `AssertValuesOp.Run(S)` returns `S` unchanged when every element of `S`
is byte-equal to some element of `Values`, and an error otherwise; with empty
`Values` the empty stack is accepted and every other stack rejected. -/
theorem AssertValuesOp_Run_spec (Values : List Bytes) (S : Stack) :
    ((ProofOperator.AssertValuesOp Values).Run S = .ok S ↔ ∀ v ∈ S, v ∈ Values) ∧
    ((ProofOperator.AssertValuesOp Values).Run S = .err "ttt" ↔ ¬ ∀ v ∈ S, v ∈ Values) ∧
    (ProofOperator.AssertValuesOp []).Run [] = .ok [] ∧
    (∀ (v : Bytes) (rest : Stack),
      (ProofOperator.AssertValuesOp []).Run (v :: rest) = .err "ttt") := by
  have hcheck : ∀ (Vs : List Bytes) (T : Stack),
      AssertValuesOp.check (AssertValuesOp.accepted Vs) T = true ↔ ∀ v ∈ T, v ∈ Vs := by
    intro Vs T
    rw [AssertValuesOp.check_iff]
    simp only [AssertValuesOp.mem_accepted]
  have hrun : ∀ (Vs : List Bytes) (T : Stack),
      (ProofOperator.AssertValuesOp Vs).Run T
        = if AssertValuesOp.check (AssertValuesOp.accepted Vs) T = true then .ok T
          else .err "ttt" := by
    intro Vs T
    rfl
  refine ⟨?_, ?_, ?_, ?_⟩
  · rw [hrun, ← hcheck]
    by_cases h : AssertValuesOp.check (AssertValuesOp.accepted Values) S = true <;> simp [h]
  · rw [hrun, ← hcheck]
    by_cases h : AssertValuesOp.check (AssertValuesOp.accepted Values) S = true <;> simp [h]
  · rfl
  · intro v rest
    have hno : ¬ AssertValuesOp.check (AssertValuesOp.accepted []) (v :: rest) = true := by
      rw [hcheck]
      intro hall
      exact absurd (hall v (List.mem_cons_self v rest)) (List.not_mem_nil v)
    rw [hrun, if_neg hno]

/-! ## `ApplyOp` -/

theorem ApplyOp.Run_eq_loop (Ops : List ProofOperator) (S : Stack) :
    (ProofOperator.ApplyOp Ops).Run S = ApplyOp.loop Ops S [] := by
  simp only [ProofOperator.Run]

theorem ApplyOp.loop_cons_short (op : ProofOperator) (rest : List ProofOperator)
    (values res : Stack) (h : (values.length : Int) < op.Argn) :
    ApplyOp.loop (op :: rest) values res = .err "ddd" := by
  simp only [ApplyOp.loop, h, if_true]

theorem ApplyOp.loop_cons_fit (op : ProofOperator) (rest : List ProofOperator)
    (values res : Stack) (h0 : 0 ≤ op.Argn) (h : ¬ (values.length : Int) < op.Argn) :
    ApplyOp.loop (op :: rest) values res =
      match op.Run (values.take op.Argn.toNat) with
      | .ok ires => ApplyOp.loop rest (values.drop op.Argn.toNat) (res ++ ires)
      | .err msg => .err msg
      | .panicked => .panicked := by
  obtain ⟨n, hn⟩ := Int.eq_ofNat_of_zero_le h0
  rw [hn] at h
  have hle : n ≤ values.length := by omega
  simp only [ApplyOp.loop, hn, h, if_false, slice_to values n hle, slice_from values n hle,
    Int.toNat_ofNat]

theorem ApplyOp.window_zero (op : ProofOperator) (rest : List ProofOperator) (S : Stack) :
    ApplyOp.window (op :: rest) S 0 = S.take op.Argn.toNat := by
  simp [ApplyOp.window, ApplyOp.argns]

theorem ApplyOp.window_succ (op : ProofOperator) (rest : List ProofOperator) (S : Stack)
    (i : Nat) :
    ApplyOp.window (op :: rest) S (i + 1) = ApplyOp.window rest (S.drop op.Argn.toNat) i := by
  simp [ApplyOp.window, ApplyOp.argns, List.drop_drop, Nat.add_comm]

theorem ApplyOp.loop_spec (Ops : List ProofOperator) :
    ∀ (values res : Stack) (outs : List Stack),
      (∀ op ∈ Ops, 0 ≤ op.Argn) →
      (ApplyOp.argns Ops).sum ≤ values.length →
      outs.length = Ops.length →
      (∀ (i : Nat) (op : ProofOperator), Ops[i]? = some op →
        op.Run (ApplyOp.window Ops values i) = .ok (outs.getD i [])) →
      ApplyOp.loop Ops values res = .ok (res ++ outs.flatten) := by
  induction Ops with
  | nil =>
    intro values res outs _ _ houts _
    have : outs = [] := List.length_eq_zero.1 houts
    subst this
    simp [ApplyOp.loop]
  | cons op rest ih =>
    intro values res outs hargn hlen houts hrun
    cases outs with
    | nil => simp at houts
    | cons out outs =>
      have h0 : 0 ≤ op.Argn := hargn op (List.mem_cons_self _ _)
      have hsum : op.Argn.toNat + (ApplyOp.argns rest).sum ≤ values.length := by
        simpa [ApplyOp.argns] using hlen
      have hfit : ¬ (values.length : Int) < op.Argn := by omega
      have hhead := hrun 0 op List.getElem?_cons_zero
      rw [ApplyOp.window_zero] at hhead
      simp only [List.getD_cons_zero] at hhead
      rw [ApplyOp.loop_cons_fit op rest values res h0 hfit, hhead]
      simp only []
      rw [ih (values.drop op.Argn.toNat) (res ++ out) outs
        (fun o ho => hargn o (List.mem_cons_of_mem _ ho))
        (by rw [List.length_drop]; omega)
        (by simpa using houts)
        (fun i o hio => by
          have := hrun (i + 1) o (by simpa using hio)
          rw [ApplyOp.window_succ] at this
          simpa using this)]
      simp

/-- C8: when the inner operators have non-negative arities `n_1, …, n_k`, the
stack has at least `n_1 + … + n_k` elements and every inner operator succeeds
on its own window of the stack, `ApplyOp.Run(S)` is the concatenation, in
order, of what the inner operators return on their windows, and nothing else;
the window of an operator has exactly as many elements as its arity. -/
theorem ApplyOp_Run_spec (Ops : List ProofOperator) (S : Stack) (outs : List Stack)
    (hargn : ∀ op ∈ Ops, 0 ≤ op.Argn)
    (hlen : (ApplyOp.argns Ops).sum ≤ S.length)
    (houts : outs.length = Ops.length)
    (hrun : ∀ (i : Nat) (op : ProofOperator), Ops[i]? = some op →
      op.Run (ApplyOp.window Ops S i) = .ok (outs.getD i [])) :
    (ProofOperator.ApplyOp Ops).Run S = .ok outs.flatten ∧
    ∀ (i : Nat) (op : ProofOperator), Ops[i]? = some op → ((ApplyOp.window Ops S i).length : Int) = op.Argn := by
  refine ⟨?_, ?_⟩
  · rw [ApplyOp.Run_eq_loop, ApplyOp.loop_spec Ops S [] outs hargn hlen houts hrun]
    simp
  · intro i op hi
    have hmem : op ∈ Ops := List.getElem?_mem hi
    have h0 : 0 ≤ op.Argn := hargn op hmem
    have hget : (ApplyOp.argns Ops)[i]? = some op.Argn.toNat := by
      simp [ApplyOp.argns, hi]
    have hi' : i < (ApplyOp.argns Ops).length := by
      rcases List.getElem?_eq_some_iff.1 hget with ⟨h, _⟩
      exact h
    have hsplit : ((ApplyOp.argns Ops).take i).sum + op.Argn.toNat
        ≤ (ApplyOp.argns Ops).sum := by
      have h1 : (ApplyOp.argns Ops).sum
          = ((ApplyOp.argns Ops).take (i + 1)).sum + ((ApplyOp.argns Ops).drop (i + 1)).sum := by
        rw [← List.sum_append, List.take_append_drop]
      have h2 : ((ApplyOp.argns Ops).take (i + 1)).sum
          = ((ApplyOp.argns Ops).take i).sum + op.Argn.toNat := by
        rw [List.take_succ, hget]
        simp
      omega
    have hd : (ApplyOp.argns Ops).getD i 0 = op.Argn.toNat := by
      simp [List.getD, hget]
    simp only [ApplyOp.window, hd, List.length_take, List.length_drop]
    omega

theorem ApplyOp_Run_spec_witness :
    (ApplyOp.argns [.SHA256Op, .AppendOp [7] [8]]).sum ≤ ([[1], [2], [3]] : Stack).length ∧
    (ProofOperator.ApplyOp [.SHA256Op, .AppendOp [7] [8]]).Run [[1], [2], [3]]
      = .ok [SHA256.sum [1], [7, 2, 8]] :=
  ⟨by decide,
   (ApplyOp_Run_spec [.SHA256Op, .AppendOp [7] [8]] [[1], [2], [3]]
      [[SHA256.sum [1]], [[7, 2, 8]]]
      (by
        intro op hop
        simp only [List.mem_cons, List.mem_singleton, List.not_mem_nil, or_false] at hop
        rcases hop with h | h <;> subst h <;> decide)
      (by decide) rfl
      (by
        intro i op hi
        rcases i with _ | _ | i
        · cases hi
          rfl
        · cases hi
          rfl
        · cases hi)).1⟩

theorem ProofOperator.Run_ok_of_arity (op : ProofOperator) (h0 : 0 ≤ op.Argn) (S : Stack)
    (hS : S ≠ []) : ∃ out, op.Run S = .ok out := by
  cases S with
  | nil => exact absurd rfl hS
  | cons v rest =>
    cases op with
    | AppendOp Prefix Suffix => exact ⟨_, rfl⟩
    | SHA256Op => exact ⟨_, rfl⟩
    | PrependLengthOp => exact ⟨_, rfl⟩
    | ConcatOp Begin End => simp [ProofOperator.Argn] at h0
    | LiftKeyOp Key => simp [ProofOperator.Argn] at h0
    | AssertValuesOp Values => simp [ProofOperator.Argn] at h0
    | ApplyOp Ops => simp [ProofOperator.Argn] at h0

theorem ProofOperator.Argn_le_one (op : ProofOperator) : op.Argn ≤ 1 := by
  cases op <;> simp [ProofOperator.Argn]

theorem ApplyOp.loop_underflow (Ops : List ProofOperator) :
    ∀ (values res : Stack) (i : Nat) (op : ProofOperator),
      (∀ o ∈ Ops, 0 ≤ o.Argn) →
      Ops[i]? = some op →
      (∀ (j : Nat) (opj : ProofOperator), j < i → Ops[j]? = some opj →
        (opj.Run (ApplyOp.window Ops values j)).isOk = true) →
      ((values.drop ((ApplyOp.argns Ops).take i).sum).length : Int) < op.Argn →
      ApplyOp.loop Ops values res = .err "ddd" := by
  induction Ops with
  | nil =>
    intro values res i op _ hi
    cases hi
  | cons op0 rest ih =>
    intro values res i op hargn hi hprev hshort
    by_cases hshort0 : (values.length : Int) < op0.Argn
    · exact ApplyOp.loop_cons_short op0 rest values res hshort0
    · have h0 : 0 ≤ op0.Argn := hargn op0 (List.mem_cons_self _ _)
      rw [ApplyOp.loop_cons_fit op0 rest values res h0 hshort0]
      cases i with
      | zero =>
        simp only [List.getElem?_cons_zero, Option.some.injEq] at hi
        subst hi
        simp only [List.take_zero, List.sum_nil, List.drop_zero] at hshort
        exact absurd hshort hshort0
      | succ i =>
        have hhead := hprev 0 op0 (Nat.succ_pos i) List.getElem?_cons_zero
        rw [ApplyOp.window_zero] at hhead
        cases hr : op0.Run (values.take op0.Argn.toNat) with
        | ok ires =>
          simp only []
          apply ih (values.drop op0.Argn.toNat) (res ++ ires) i op
            (fun o ho => hargn o (List.mem_cons_of_mem _ ho))
            (by simpa using hi)
          · intro j opj hj hjo
            have := hprev (j + 1) opj (by omega) (by simpa using hjo)
            rw [ApplyOp.window_succ] at this
            exact this
          · simpa [ApplyOp.argns, List.drop_drop, Nat.add_comm] using hshort
        | err msg => rw [hr] at hhead; cases hhead
        | panicked => rw [hr] at hhead; cases hhead

theorem ApplyOp.loop_short (Ops : List ProofOperator) :
    ∀ (values res : Stack),
      (∀ o ∈ Ops, 0 ≤ o.Argn) →
      (∀ o ∈ Ops, ∀ args : Stack, (args.length : Int) = o.Argn → (o.Run args).isOk = true) →
      values.length < (ApplyOp.argns Ops).sum →
      ApplyOp.loop Ops values res = .err "ddd" := by
  induction Ops with
  | nil =>
    intro values res _ _ hlt
    simp [ApplyOp.argns] at hlt
  | cons op0 rest ih =>
    intro values res hargn hnofail hlt
    by_cases hshort0 : (values.length : Int) < op0.Argn
    · exact ApplyOp.loop_cons_short op0 rest values res hshort0
    · have h0 : 0 ≤ op0.Argn := hargn op0 (List.mem_cons_self _ _)
      have hsum : values.length < op0.Argn.toNat + (ApplyOp.argns rest).sum := by
        simpa [ApplyOp.argns] using hlt
      have hok := hnofail op0 (List.mem_cons_self _ _) (values.take op0.Argn.toNat)
        (by rw [List.length_take]; omega)
      rw [ApplyOp.loop_cons_fit op0 rest values res h0 hshort0]
      cases hr : op0.Run (values.take op0.Argn.toNat) with
      | ok ires =>
        simp only []
        exact ih (values.drop op0.Argn.toNat) (res ++ ires)
          (fun o ho => hargn o (List.mem_cons_of_mem _ ho))
          (fun o ho => hnofail o (List.mem_cons_of_mem _ ho))
          (by rw [List.length_drop]; omega)
      | err msg => rw [hr] at hok; cases hok
      | panicked => rw [hr] at hok; cases hok

/-- C9: for an `ApplyOp` whose inner operators have non-negative arities, if
the inner operator at index `i` finds fewer elements left on the working stack
than its arity, all earlier inner runs having succeeded, `ApplyOp.Run(S)`
returns the error `ddd`; in particular it does so whenever `len(S)` is less
than the sum of the arities and the inner operators cannot fail. -/
theorem ApplyOp_Run_underflow (Ops : List ProofOperator) (S : Stack)
    (hargn : ∀ op ∈ Ops, 0 ≤ op.Argn) :
    (∀ (i : Nat) (op : ProofOperator), Ops[i]? = some op →
      (∀ (j : Nat) (opj : ProofOperator), j < i → Ops[j]? = some opj →
        (opj.Run (ApplyOp.window Ops S j)).isOk = true) →
      ((S.drop ((ApplyOp.argns Ops).take i).sum).length : Int) < op.Argn →
      (ProofOperator.ApplyOp Ops).Run S = .err "ddd") ∧
    ((∀ op ∈ Ops, ∀ args : Stack, (args.length : Int) = op.Argn → (op.Run args).isOk = true) →
      S.length < (ApplyOp.argns Ops).sum →
      (ProofOperator.ApplyOp Ops).Run S = .err "ddd") := by
  refine ⟨?_, ?_⟩
  · intro i op hi hprev hshort
    rw [ApplyOp.Run_eq_loop]
    exact ApplyOp.loop_underflow Ops S [] i op hargn hi hprev hshort
  · intro hnofail hlt
    rw [ApplyOp.Run_eq_loop]
    exact ApplyOp.loop_short Ops S [] hargn hnofail hlt

theorem ApplyOp_Run_underflow_witness :
    (∀ op ∈ [ProofOperator.SHA256Op, ProofOperator.AppendOp [7] [8]], 0 ≤ op.Argn) ∧
    (ProofOperator.ApplyOp [.SHA256Op, .AppendOp [7] [8]]).Run [[1]] = .err "ddd" ∧
    (ProofOperator.ApplyOp [.SHA256Op, .AppendOp [7] [8]]).Run [] = .err "ddd" :=
  have hargn : ∀ op ∈ [ProofOperator.SHA256Op, ProofOperator.AppendOp [7] [8]],
      0 ≤ op.Argn := by
    intro op hop
    simp only [List.mem_cons, List.mem_singleton, List.not_mem_nil, or_false] at hop
    rcases hop with h | h <;> subst h <;> decide
  ⟨hargn,
   (ApplyOp_Run_underflow [.SHA256Op, .AppendOp [7] [8]] [[1]] hargn).1 1 (.AppendOp [7] [8]) rfl
      (by
        intro j opj hj hjo
        have hj0 : j = 0 := by omega
        subst hj0
        cases hjo
        rfl)
      (by decide),
   (ApplyOp_Run_underflow [.SHA256Op, .AppendOp [7] [8]] [] hargn).2
      (by
        intro op hop args hlen
        have hne : args ≠ [] := by
          intro hnil
          subst hnil
          simp only [List.mem_cons, List.mem_singleton, List.not_mem_nil, or_false] at hop
          rcases hop with h | h <;> subst h <;> simp [ProofOperator.Argn] at hlen
        obtain ⟨out, hr⟩ := op.Run_ok_of_arity (hargn op hop) args hne
        rw [hr]
        rfl)
      (by decide)⟩

/-! ## Panics -/

theorem ApplyOp.loop_returns (Ops : List ProofOperator) :
    ∀ (values res : Stack), (∀ o ∈ Ops, 0 ≤ o.Argn) →
      (ApplyOp.loop Ops values res).returns = true := by
  induction Ops with
  | nil =>
    intro values res _
    rfl
  | cons op0 rest ih =>
    intro values res hargn
    by_cases hshort0 : (values.length : Int) < op0.Argn
    · rw [ApplyOp.loop_cons_short op0 rest values res hshort0]
      rfl
    · have h0 : 0 ≤ op0.Argn := hargn op0 (List.mem_cons_self _ _)
      have h1 : op0.Argn ≤ 1 := op0.Argn_le_one
      have hne : values.take op0.Argn.toNat ≠ [] := by
        have hpos : 0 < op0.Argn := by
          cases op0 <;> simp [ProofOperator.Argn] at h0 ⊢
        intro hnil
        have hlen := congrArg List.length hnil
        rw [List.length_take] at hlen
        simp only [List.length_nil] at hlen
        omega
      obtain ⟨ires, hr⟩ := op0.Run_ok_of_arity h0 _ hne
      rw [ApplyOp.loop_cons_fit op0 rest values res h0 hshort0, hr]
      exact ih _ _ (fun o ho => hargn o (List.mem_cons_of_mem _ ho))

/-- C10, as stated, fails at each of its three examples: `SHA256Op` on the empty
stack indexes `values[0]`, `ConcatOp` with `Begin > End` slices
`values[Begin:End]`, and `ApplyOp` slices `values[:argn]` with the arity `-1` of
its inner `LiftKeyOp`; each is a run-time panic. -/
theorem Run_panics :
    ProofOperator.SHA256Op.Run [] = .panicked ∧
    (ProofOperator.ConcatOp 1 0).Run [[1]] = .panicked ∧
    (ProofOperator.ApplyOp [.LiftKeyOp [1]]).Run [[2]] = .panicked := by
  decide

/-- C10, amended: on a stack that is not empty for the operators of arity 1,
with `0 ≤ Begin ≤ End` for `ConcatOp` and inner operators of non-negative arity
for `ApplyOp`, `Run` returns a result stack or an error value and does not
panic. -/
theorem Run_returns_of_wellCalled (op : ProofOperator) (S : Stack) (h : op.wellCalled S) :
    (op.Run S).returns = true := by
  cases op with
  | AppendOp Prefix Suffix =>
    obtain ⟨out, hr⟩ := (ProofOperator.AppendOp Prefix Suffix).Run_ok_of_arity (by simp [ProofOperator.Argn]) S h
    rw [hr]
    rfl
  | SHA256Op =>
    obtain ⟨out, hr⟩ := ProofOperator.SHA256Op.Run_ok_of_arity (by decide) S h
    rw [hr]
    rfl
  | PrependLengthOp =>
    obtain ⟨out, hr⟩ := ProofOperator.PrependLengthOp.Run_ok_of_arity (by decide) S h
    rw [hr]
    rfl
  | ConcatOp Begin End =>
    obtain ⟨h0, hbe⟩ := h
    by_cases hshort : (S.length : Int) < End
    · simp only [ProofOperator.Run, ConcatOp.Run, hshort, if_true]
      rfl
    · rw [(ConcatOp_Run_of_bounds Begin End S h0 hbe (by omega))]
      rfl
  | LiftKeyOp Key => rfl
  | AssertValuesOp Values =>
    simp only [ProofOperator.Run, AssertValuesOp.Run]
    split <;> rfl
  | ApplyOp Ops =>
    rw [ApplyOp.Run_eq_loop]
    exact ApplyOp.loop_returns Ops S [] h

theorem Run_returns_of_wellCalled_witness :
    (ProofOperator.ConcatOp 0 2).wellCalled [[1]] ∧
    ((ProofOperator.ConcatOp 0 2).Run [[1]]).returns = true :=
  have hcall : (ProofOperator.ConcatOp 0 2).wellCalled [[1]] :=
    show (0 : Int) ≤ 0 ∧ (0 : Int) ≤ 2 by decide
  ⟨hcall, Run_returns_of_wellCalled (.ConcatOp 0 2) [[1]] hcall⟩

/-! ## `OpDecoderAppend` and trailing bytes -/

theorem OpDecoderAppend_extra (t : String) (key p s extra : Bytes)
    (hp : p.length < 2 ^ 63) (hs : s.length < 2 ^ 63) :
    OpDecoderAppend ⟨t, key, amino.EncodeByteSlice p ++ amino.EncodeByteSlice s ++ extra⟩
      = if extra.length ≠ 0 then .err "vvv" else .ok (.AppendOp p s) := by
  have h1 := amino.DecodeByteSlice_EncodeByteSlice p (amino.EncodeByteSlice s ++ extra) hp
  have h2 := amino.DecodeByteSlice_EncodeByteSlice s extra hs
  have hs1 := slice_from (amino.EncodeByteSlice p ++ (amino.EncodeByteSlice s ++ extra))
    (amino.EncodeByteSlice p).length (by simp)
  have hs2 := slice_from (amino.EncodeByteSlice s ++ extra) (amino.EncodeByteSlice s).length
    (by simp)
  simp only [List.drop_left] at hs1 hs2
  simp only [OpDecoderAppend, List.append_assoc, h1, hs1, h2, hs2]

/-- C11: a payload `encode_bytes(p) || encode_bytes(s) || extra` with a
non-empty `extra` makes `OpDecoderAppend` return an error (`vvv`); with `extra`
empty it returns `AppendOp{p, s}`. -/
theorem OpDecoderAppend_trailing_bytes (t : String) (key p s extra : Bytes)
    (hp : p.length < 2 ^ 63) (hs : s.length < 2 ^ 63) (hextra : extra ≠ []) :
    OpDecoderAppend ⟨t, key, amino.EncodeByteSlice p ++ amino.EncodeByteSlice s ++ extra⟩
      = .err "vvv" ∧
    OpDecoderAppend ⟨t, key, amino.EncodeByteSlice p ++ amino.EncodeByteSlice s ++ []⟩
      = .ok (.AppendOp p s) := by
  have hne : extra.length ≠ 0 := fun h => hextra (List.length_eq_zero.1 h)
  refine ⟨?_, ?_⟩
  · rw [OpDecoderAppend_extra t key p s extra hp hs, if_pos hne]
  · rw [OpDecoderAppend_extra t key p s [] hp hs]
    rfl

theorem OpDecoderAppend_trailing_bytes_witness :
    (([1, 2] : Bytes).length < 2 ^ 63 ∧ ([3] : Bytes).length < 2 ^ 63 ∧ ([9] : Bytes) ≠ []) ∧
    OpDecoderAppend ⟨OpTypeAppend, [], [2, 1, 2, 1, 3, 9]⟩ = .err "vvv" ∧
    OpDecoderAppend ⟨OpTypeAppend, [], [2, 1, 2, 1, 3]⟩ = .ok (.AppendOp [1, 2] [3]) :=
  ⟨by decide,
   OpDecoderAppend_trailing_bytes OpTypeAppend [] [1, 2] [3] [9] (by decide) (by decide)
     (by decide)⟩

/-! ## `PrependLengthOp` and the varint -/

theorem amino.byte_flag_mod : ∀ y, y < 256 → ((y ||| 128) % 256) % 128 = y % 128 := by
  set_option maxRecDepth 100000 in decide

theorem amino.putUvarint_shape (fuel : Nat) :
    ∀ x : Nat, 0 < fuel → x < 2 ^ (7 * fuel) →
      ∃ (front : Bytes) (last : UInt8), putUvarint fuel x = front ++ [last] ∧
        (∀ b ∈ front, 128 ≤ b.toNat) ∧ last.toNat < 128 ∧
        (0 < x → last.toNat ≠ 0) ∧ (front ≠ [] → 0 < x) ∧
        amino.uvarintValue (putUvarint fuel x) = x := by
  induction fuel with
  | zero => intro x h; omega
  | succ fuel ih =>
    intro x _ hx
    by_cases hlt : x < 128
    · have hb : (UInt8.ofNat x).toNat = x := by
        show x % 256 = x
        omega
      refine ⟨[], UInt8.ofNat x, ?_, ?_, ?_, ?_, ?_, ?_⟩
      · simp only [putUvarint, hlt, if_true, List.nil_append]
      · intro b hbm
        cases hbm
      · rw [hb]
        exact hlt
      · intro hpos
        rw [hb]
        omega
      · intro h
        exact absurd rfl h
      · simp only [putUvarint, hlt, if_true, amino.uvarintValue, hb]
        omega
    · have hx1 : x / 128 < 2 ^ (7 * fuel) := by
        apply Nat.div_lt_of_lt_mul
        have : 2 ^ (7 * (fuel + 1)) = 128 * 2 ^ (7 * fuel) := by
          rw [Nat.mul_add, pow_add]
          norm_num
          ring
        omega
      have hone : 1 ≤ x / 128 := (Nat.one_le_div_iff (by norm_num)).2 (by omega)
      have hfuel : 0 < fuel := by
        rcases Nat.eq_zero_or_pos fuel with h | h
        · subst h
          simp at hx1
          omega
        · exact h
      have hshift : x >>> 7 = x / 128 := by rw [Nat.shiftRight_eq_div_pow]
      have hb : (UInt8.ofNat (x % 256 ||| 128)).toNat = (x % 256 ||| 128) % 256 := rfl
      have hy := amino.byte_flag (x % 256) (Nat.mod_lt _ (by norm_num))
      have hym := amino.byte_flag_mod (x % 256) (Nat.mod_lt _ (by norm_num))
      obtain ⟨front, last, hshape, hfront, hlast, hnz, _, hval⟩ := ih (x / 128) hfuel hx1
      have hput : putUvarint (fuel + 1) x
          = UInt8.ofNat (x % 256 ||| 128) :: putUvarint fuel (x / 128) := by
        simp only [putUvarint, hlt, if_false, hshift]
      refine ⟨UInt8.ofNat (x % 256 ||| 128) :: front, last, ?_, ?_, hlast, ?_, ?_, ?_⟩
      · rw [hput, hshape]
        rfl
      · intro b hbm
        rcases List.mem_cons.1 hbm with h | h
        · rw [h, hb]
          exact hy.1
        · exact hfront b h
      · intro _
        exact hnz (by omega)
      · intro _
        omega
      · rw [hput]
        simp only [amino.uvarintValue, hval, hb, hym]
        omega

theorem amino.EncodeUvarint_isUvarint (n : Nat) (hn : n < 2 ^ 64) :
    amino.IsUvarint n (amino.EncodeUvarint n) := by
  obtain ⟨front, last, hshape, hfront, hlast, hnz, hpos, hval⟩ :=
    amino.putUvarint_shape 10 n (by norm_num) (lt_of_lt_of_le hn (by norm_num))
  unfold amino.IsUvarint amino.EncodeUvarint
  rw [Nat.mod_eq_of_lt hn]
  exact ⟨⟨front, last, hshape, hfront, hlast, fun h => hnz (hpos h)⟩, hval⟩

/-- C12: `PrependLengthOp.Run([v])` succeeds and returns the one-element stack
`[uvarint(len(v)) || v]`, the prefix being the unsigned little-endian base-128
varint of the length (7 payload bits a byte, high bit set on every byte but the
last); for the empty `v` the result is `[0x00]`. -/
theorem PrependLengthOp_Run_single (v : Bytes) (hlen : v.length < 2 ^ 64) :
    ProofOperator.PrependLengthOp.Run [v] = .ok [amino.EncodeUvarint v.length ++ v] ∧
    amino.IsUvarint v.length (amino.EncodeUvarint v.length) ∧
    ProofOperator.PrependLengthOp.Run [[]] = .ok [[0x00]] :=
  ⟨rfl, amino.EncodeUvarint_isUvarint v.length hlen, rfl⟩

set_option maxRecDepth 20000 in
theorem PrependLengthOp_Run_single_witness :
    (List.replicate 130 (7 : UInt8)).length < 2 ^ 64 ∧
    ProofOperator.PrependLengthOp.Run [List.replicate 130 7]
      = .ok [[0x82, 0x01] ++ List.replicate 130 7] :=
  have hlen : (List.replicate 130 (7 : UInt8)).length < 2 ^ 64 := by
    rw [List.length_replicate]
    norm_num
  ⟨hlen, (PrependLengthOp_Run_single (List.replicate 130 7) hlen).1⟩

/-! ## `AppendOp`, `SHA256Op`, `LiftKeyOp` on their own -/

/-- C13: `AppendOp{prefix, suffix}.Run([v])` succeeds and returns the one-element
stack `[prefix || v || suffix]`, so that `RunOps(v, [AppendOp, SHA256Op])` is
`SHA256(prefix || v || suffix)`. -/
theorem AppendOp_Run_single (Prefix Suffix v : Bytes) :
    (ProofOperator.AppendOp Prefix Suffix).Run [v] = .ok [Prefix ++ v ++ Suffix] ∧
    RunOps (some v) [[.AppendOp Prefix Suffix, .SHA256Op]]
      = .ok (SHA256.sum (Prefix ++ v ++ Suffix)) :=
  ⟨rfl, rfl⟩

theorem SHA256.length_sum (msg : Bytes) : (SHA256.sum msg).length = 32 := by
  simp [SHA256.sum, SHA256.digest, SHA256.wordBytes]

/-- C14: `SHA256Op.Run([v])` succeeds and returns a stack with exactly one
element, the SHA-256 digest of `v`, 32 bytes long, so that
`RunOps(v, [SHA256Op])` is `SHA256(v)`. -/
theorem SHA256Op_Run_single (v : Bytes) :
    ProofOperator.SHA256Op.Run [v] = .ok [SHA256.sum v] ∧
    (SHA256.sum v).length = 32 ∧
    RunOps (some v) [[.SHA256Op]] = .ok (SHA256.sum v) :=
  ⟨rfl, SHA256.length_sum v, rfl⟩

/-- C15: `LiftKeyOp{key}.Run(S)` succeeds on every stack, the empty one
included, and returns `[key] ++ S`: the key at index 0, one element more, the
elements of `S` after it unchanged and in order. -/
theorem LiftKeyOp_Run_spec (Key : Bytes) (S : Stack) :
    (ProofOperator.LiftKeyOp Key).Run S = .ok ([Key] ++ S) ∧
    ([Key] ++ S)[0]? = some Key ∧
    ([Key] ++ S).length = S.length + 1 ∧
    ([Key] ++ S).drop 1 = S ∧
    (ProofOperator.LiftKeyOp Key).Run [] = .ok [Key] := by
  refine ⟨rfl, ?_, ?_, rfl, rfl⟩
  · simp
  · simp

/-! ## `ConcatOp` on a short stack -/

/-- C16: when `End > len(S)`, `ConcatOp.Run(S)` returns an error (`hhh`)
whatever `Begin` is; and with `0 ≤ Begin ≤ End` it returns an error exactly
when `len(S) < End`. -/
theorem ConcatOp_Run_underflow (Begin End : Int) (S : Stack) :
    ((S.length : Int) < End → (ProofOperator.ConcatOp Begin End).Run S = .err "hhh") ∧
    (0 ≤ Begin → Begin ≤ End →
      ((∃ msg, (ProofOperator.ConcatOp Begin End).Run S = .err msg) ↔ (S.length : Int) < End)) := by
  have hshort : (S.length : Int) < End →
      (ProofOperator.ConcatOp Begin End).Run S = .err "hhh" := by
    intro h
    simp only [ProofOperator.Run, ConcatOp.Run, h, if_true]
  refine ⟨hshort, ?_⟩
  intro h0 hbe
  constructor
  · rintro ⟨msg, hmsg⟩
    by_contra hlen
    rw [ConcatOp_Run_of_bounds Begin End S h0 hbe (by omega)] at hmsg
    cases hmsg
  · intro h
    exact ⟨"hhh", hshort h⟩

theorem ConcatOp_Run_underflow_witness :
    (ProofOperator.ConcatOp 5 3).Run [[1], [2]] = .err "hhh" ∧
    ((∃ msg, (ProofOperator.ConcatOp 0 3).Run [[1], [2]] = .err msg)
      ↔ ((([[1], [2]] : Stack).length : Int) < 3)) ∧
    ((∃ msg, (ProofOperator.ConcatOp 0 2).Run [[1], [2]] = .err msg)
      ↔ ((([[1], [2]] : Stack).length : Int) < 2)) :=
  ⟨(ConcatOp_Run_underflow 5 3 [[1], [2]]).1 (by decide),
   (ConcatOp_Run_underflow 0 3 [[1], [2]]).2 (by decide) (by decide),
   (ConcatOp_Run_underflow 0 2 [[1], [2]]).2 (by decide) (by decide)⟩

/-! ## The grammar of `SimpleKVLeafOp` -/

/-- C17: `OpValidatorSimpleKVLeaf(ops)` succeeds exactly when `ops` has at least
five operators whose type tags are, in order, `sha256`, `prepend_length`,
`lift_key`, `prepend_length`, `concat`, and what it then returns is `ops[5:]`. -/
theorem OpValidatorSimpleKVLeaf_spec (ops rest : List ProofOperator) :
    OpValidatorSimpleKVLeaf ops = .ok rest ↔
      (5 ≤ ops.length ∧
        (ops.take 5).map ProofOperator.Type_
          = [OpTypeSHA256, OpTypePrependLength, OpTypeLiftKey, OpTypePrependLength,
             OpTypeConcat] ∧
        rest = ops.drop 5) := by
  unfold OpValidatorSimpleKVLeaf
  rw [opValidatorSimpleKVLeaf_ok_iff]
  constructor
  · rintro ⟨o1, o2, o3, o4, o5, hops, e1, e2, e3, e4, e5⟩
    subst hops
    refine ⟨by simp, by simp [e1, e2, e3, e4, e5], by simp⟩
  · rintro ⟨hlen, htags, hrest⟩
    rcases ops with _ | ⟨o1, _ | ⟨o2, _ | ⟨o3, _ | ⟨o4, _ | ⟨o5, tl⟩⟩⟩⟩⟩
    · simp at hlen
    · simp at hlen
    · simp at hlen
    · simp at hlen
    · simp at hlen
    · simp only [List.take_succ_cons, List.take_zero, List.map_cons, List.map_nil,
        List.cons.injEq, and_true] at htags
      simp only [List.drop_succ_cons, List.drop_zero] at hrest
      subst hrest
      exact ⟨o1, o2, o3, o4, o5, rfl, htags.1, htags.2.1, htags.2.2.1, htags.2.2.2.1,
        htags.2.2.2.2⟩

/-! ## Keys -/

/-- C19: `GetKey` returns nil (the empty byte string) for every `SHA256Op`,
`PrependLengthOp`, `AppendOp`, `ConcatOp`, `AssertValuesOp` and `ApplyOp`, so the
wire key built from it is empty, and returns `Key` for `LiftKeyOp{Key}`;
`OpDecoderLiftKey` returns the `LiftKeyOp` whose `Key` is the key field of the
`ProofOp`. -/
theorem GetKey_spec :
    ProofOperator.SHA256Op.GetKey = [] ∧
    ProofOperator.PrependLengthOp.GetKey = [] ∧
    (∀ Prefix Suffix : Bytes, (ProofOperator.AppendOp Prefix Suffix).GetKey = []) ∧
    (∀ Begin End : Int, (ProofOperator.ConcatOp Begin End).GetKey = []) ∧
    (∀ Values : List Bytes, (ProofOperator.AssertValuesOp Values).GetKey = []) ∧
    (∀ Ops : List ProofOperator, (ProofOperator.ApplyOp Ops).GetKey = []) ∧
    (∀ Key : Bytes, (ProofOperator.LiftKeyOp Key).GetKey = Key) ∧
    (∀ op : ProofOperator, (ToProofOp op).Key = op.GetKey) ∧
    (∀ pop : ProofOp, OpDecoderLiftKey pop = .ok (.LiftKeyOp pop.Key)) :=
  ⟨rfl, rfl, fun _ _ => rfl, fun _ _ => rfl, fun _ => rfl, fun _ => rfl, fun _ => rfl,
    fun _ => rfl, fun _ => rfl⟩

/-! ## The leaf program -/

/-- C20: on input `v` the leaf program `[SHA256Op, PrependLengthOp,
LiftKeyOp{k}, PrependLengthOp, ConcatOp{0, 2}]` runs without failure, leaves a
stack of exactly one element, and `RunOps` returns
`uvarint(len(k)) || k || uvarint(32) || SHA256(v)`. -/
theorem RunOps_leaf_program (k v : Bytes) (hk : k.length < 2 ^ 64) :
    RunOps.outer
        [[.SHA256Op, .PrependLengthOp, .LiftKeyOp k, .PrependLengthOp, .ConcatOp 0 2]] [v]
      = .ok [amino.EncodeUvarint k.length ++ k ++ amino.EncodeUvarint 32 ++ SHA256.sum v] ∧
    RunOps (some v)
        [[.SHA256Op, .PrependLengthOp, .LiftKeyOp k, .PrependLengthOp, .ConcatOp 0 2]]
      = .ok (amino.EncodeUvarint k.length ++ k ++ amino.EncodeUvarint 32 ++ SHA256.sum v) ∧
    amino.IsUvarint k.length (amino.EncodeUvarint k.length) ∧
    amino.IsUvarint 32 (amino.EncodeUvarint 32) ∧
    amino.EncodeUvarint 32 = [0x20] := by
  have hconcat := ConcatOp.Run_of_le 0 2
    [amino.EncodeByteSlice k, amino.EncodeByteSlice (SHA256.sum v)] (by decide)
    (Nat.le_refl 2)
  have houter : RunOps.outer
      [[.SHA256Op, .PrependLengthOp, .LiftKeyOp k, .PrependLengthOp, .ConcatOp 0 2]] [v]
      = .ok [amino.EncodeUvarint k.length ++ k ++ amino.EncodeUvarint 32 ++ SHA256.sum v] := by
    simp only [RunOps.outer, RunOps.inner, ProofOperator.Run, SHA256Op.Run, index0,
      List.head?_cons, PrependLengthOp.Run, List.tail_cons, LiftKeyOp.Run]
    have hc : ConcatOp.Run 0 2 [amino.EncodeByteSlice k, amino.EncodeByteSlice (SHA256.sum v)]
        = .ok [amino.EncodeUvarint k.length ++ k ++ amino.EncodeUvarint 32 ++ SHA256.sum v] := by
      rw [show ((0 : Int) = ((0 : Nat) : Int)) from rfl, show ((2 : Int) = ((2 : Nat) : Int)) from rfl,
        hconcat]
      simp [amino.EncodeByteSlice, SHA256.length_sum]
    rw [hc]
  refine ⟨houter, ?_, amino.EncodeUvarint_isUvarint k.length hk,
    amino.EncodeUvarint_isUvarint 32 (by norm_num), rfl⟩
  simp only [RunOps, houter, index0, List.head?_cons]

theorem RunOps_leaf_program_witness :
    ([0x6b] : Bytes).length < 2 ^ 64 ∧
    RunOps (some [0x76])
        [[.SHA256Op, .PrependLengthOp, .LiftKeyOp [0x6b], .PrependLengthOp, .ConcatOp 0 2]]
      = .ok ([0x01, 0x6b, 0x20] ++ SHA256.sum [0x76]) :=
  ⟨by decide, (RunOps_leaf_program [0x6b] [0x76] (by decide)).2.1⟩

/-! ## What the operators of arity 1 do with the rest of the stack -/

/-- C21: on a stack of two elements or more, `SHA256Op.Run` and `AppendOp.Run`
return a one-element stack computed from `S[0]` alone, the other elements being
dropped, whereas `PrependLengthOp.Run` returns a stack of the same length in
which index 0 has become `uvarint(len(S[0])) || S[0]` and `S[1:]` is
unchanged. -/
theorem Run_arity_one_on_longer_stack (Prefix Suffix a b : Bytes) (rest : Stack) :
    (ProofOperator.SHA256Op.Run (a :: b :: rest) = .ok [SHA256.sum a] ∧
      (ProofOperator.AppendOp Prefix Suffix).Run (a :: b :: rest)
        = .ok [Prefix ++ a ++ Suffix]) ∧
    (∀ other : Stack,
      ProofOperator.SHA256Op.Run (a :: other) = ProofOperator.SHA256Op.Run (a :: b :: rest) ∧
      (ProofOperator.AppendOp Prefix Suffix).Run (a :: other)
        = (ProofOperator.AppendOp Prefix Suffix).Run (a :: b :: rest)) ∧
    (ProofOperator.PrependLengthOp.Run (a :: b :: rest)
        = .ok ((amino.EncodeUvarint a.length ++ a) :: b :: rest) ∧
      ((amino.EncodeUvarint a.length ++ a) :: b :: rest).length = (a :: b :: rest).length ∧
      ((amino.EncodeUvarint a.length ++ a) :: b :: rest).drop 1 = (a :: b :: rest).drop 1) :=
  ⟨⟨rfl, rfl⟩, fun _ => ⟨rfl, rfl⟩, rfl, rfl, rfl⟩

/-! ## A decoded `ConcatOp` -/

/-- C22: `OpDecoderConcat` returns `ConcatOp{0, 0}` for every `ProofOp`, and on
every stack `S` that operator succeeds and returns `[empty byte string] ++ S`:
nothing is joined, an empty element is put at index 0 and the stack is one
longer. -/
theorem OpDecoderConcat_Run (pop : ProofOp) (S : Stack) :
    OpDecoderConcat pop = .ok (.ConcatOp 0 0) ∧
    (ProofOperator.ConcatOp 0 0).Run S = .ok ([[]] ++ S) ∧
    ([[]] ++ S).length = S.length + 1 := by
  refine ⟨rfl, ?_, by simp⟩
  have h := ConcatOp.Run_of_le 0 0 S (Nat.le_refl 0) (Nat.zero_le _)
  simp only [List.take_zero, List.drop_zero, Nat.sub_self, List.flatten_nil,
    List.nil_append] at h
  simp only [ProofOperator.Run]
  exact h

/-! ## `RunOps` over several programs -/

theorem RunOps.outer_eq_inner_flatten (opss : List (List ProofOperator)) (values : Stack) :
    RunOps.outer opss values = RunOps.inner opss.flatten values := by
  induction opss generalizing values with
  | nil => rfl
  | cons ops opss ih =>
    simp only [RunOps.outer, List.flatten_cons, RunOps.inner_append]
    cases RunOps.inner ops values with
    | ok values1 => exact ih values1
    | err msg => rfl
    | panicked => rfl

theorem RunOps_eq_of_flatten (input : Option Bytes) (opss1 opss2 : List (List ProofOperator))
    (h : opss1.flatten = opss2.flatten) : RunOps input opss1 = RunOps input opss2 := by
  simp only [RunOps, RunOps.outer_eq_inner_flatten, h]

/-- C23: `RunOps` treats its programs as one concatenated program:
`RunOps(input, p1, p2)` and `RunOps(input, p1 ++ p2)` have the same outcome, as
have any list of programs and its concatenation; an empty program can be
inserted or removed anywhere; and with no operator at all and a non-nil input
`RunOps` returns the input. -/
theorem RunOps_programs_concatenate (input : Option Bytes) :
    (∀ p1 p2 : List ProofOperator, RunOps input [p1, p2] = RunOps input [p1 ++ p2]) ∧
    (∀ opss : List (List ProofOperator), RunOps input opss = RunOps input [opss.flatten]) ∧
    (∀ front back : List (List ProofOperator),
      RunOps input (front ++ [[]] ++ back) = RunOps input (front ++ back)) ∧
    (∀ (v : Bytes) (n : Nat), RunOps (some v) (List.replicate n []) = .ok v) := by
  refine ⟨?_, ?_, ?_, ?_⟩
  · intro p1 p2
    exact RunOps_eq_of_flatten input _ _ (by simp)
  · intro opss
    exact RunOps_eq_of_flatten input _ _ (by simp)
  · intro front back
    exact RunOps_eq_of_flatten input _ _ (by simp)
  · intro v n
    have hflat : (List.replicate n ([] : List ProofOperator)).flatten = [] := by
      induction n with
      | zero => rfl
      | succ n ih =>
        rw [List.replicate_succ, List.flatten_cons, ih]
        rfl
    simp only [RunOps, RunOps.outer_eq_inner_flatten, hflat, RunOps.inner, index0,
      List.head?_cons]

end Merkle
